import Mathlib

/-!
# Charniak parser Thrift handler: flattening and per-document fan-out

A shallow embedding of `annotators/charniakThriftServer.C` (class `ParserHandler`).

Conventions of the embedding:

* `std::string` is a Lean `String`; one character stands for one byte.
* Thrift `i32` fields and C++ `int` variables are `Int`.  Node lists are taken to be
  shorter than `2^31` entries, so `nodes_.size() - 1` converts to `int` exactly; the
  `size_t` conversions inside `std::string::substr` are modelled explicitly.
* `std::map<K, V>` is an association list kept in key order, with the non-overwriting
  `insert` of the standard library.
* Out-parameters (`parseTree_`, `_parses`, `nodes_`) are passed in and returned; a method
  also returns the exception that left it and the list of calls to `parseSentence` and
  `parseTokenizedSentence` made while it ran.
* The statistical parser, the tokenizer, `iconv` and `libm` are parameters.
* The clock field `lastAnnotationTime` and the `cerr` diagnostics are left out.
-/

namespace Charniak

/-! ## Thrift data model (`base_types.h`, `curator_types.h`) -/

/-- Thrift `Span`: the two `i32` offsets the handler reads and writes. -/
structure Span where
  start : Int
  ending : Int
  deriving DecidableEq

/-- Presence flags of the optional fields of a Thrift `Node` that the handler sets. -/
structure NodeIsset where
  span : Bool
  children : Bool
  deriving DecidableEq

/-- Thrift `Node`: label, span, and the `map<i32, string>` from child index to edge label. -/
structure Node where
  label : String
  span : Span
  children : List (Int × String)
  isset : NodeIsset
  deriving DecidableEq

/-- A default-constructed `Node` (the state of `Node myNode;`). -/
def Node.init : Node :=
  { label := "", span := ⟨0, 0⟩, children := [], isset := ⟨false, false⟩ }

/-- The call `std::map::insert(make_pair(k, v))`: the entry is placed in key order, and an
entry already stored under `k` is left as it is. -/
def mapInsert (m : List (Int × String)) (k : Int) (v : String) : List (Int × String) :=
  match m with
  | [] => [(k, v)]
  | e :: rest =>
    if k < e.1 then (k, v) :: e :: rest
    else if k = e.1 then e :: rest
    else e :: mapInsert rest k v

/-! ## The native tree of the parser (`InputTree`) -/

/-- The part of the `InputTree` class of the parser that the handler reads: `term()`, `ntInfo()`,
`startOffset()`, `endOffset()` and `subTrees()`. -/
inductive InputTree where
  | mk (term ntInfo : String) (startOffset endOffset : Int) (subTrees : List InputTree)

namespace InputTree

/-- Accessor `term()`. -/
def term : InputTree → String
  | mk t _ _ _ _ => t

/-- Accessor `ntInfo()`. -/
def ntInfo : InputTree → String
  | mk _ n _ _ _ => n

/-- Accessor `startOffset()`. -/
def startOffset : InputTree → Int
  | mk _ _ s _ _ => s

/-- Accessor `endOffset()`. -/
def endOffset : InputTree → Int
  | mk _ _ _ e _ => e

/-- Accessor `subTrees()`. -/
def subTrees : InputTree → List InputTree
  | mk _ _ _ _ cs => cs

end InputTree

/-! ## `ParserHandler::addRootNodeAndTraverse` -/

/-- The record `myNode` before the loop over the children: label and span are filled in
and the span flag is set (the offset passed by the caller is not added, as in the source). -/
def rootNode (chkParse : InputTree) : Node :=
  { Node.init with
    label := chkParse.term ++ chkParse.ntInfo
    span := ⟨chkParse.startOffset, chkParse.endOffset⟩
    isset := ⟨true, false⟩ }

/-- One pass of the loop body after the recursive call has returned `nodes`: the child
identifier is `nodes_.size() - 1` and the edge is labelled by comparing the head position
with the running child index. -/
def addChildEdge (childOffset childIndex : Int) (myNode : Node) (nodes : List Node) : Node :=
  let childId : Int := (nodes.length : Int) - 1
  if childOffset = childIndex then
    { myNode with children := mapInsert myNode.children childId "HEAD" }
  else
    { myNode with children := mapInsert myNode.children childId "" }

mutual

/-- The method `addRootNodeAndTraverse(chkParse_, nodes_, startCharOffset_)`; the result is
the node list after the call.  `headPosFromTree` is the external head finder. -/
def addRootNodeAndTraverse (headPosFromTree : InputTree → Int) :
    InputTree → List Node → Int → List Node
  | InputTree.mk term ntInfo so eo children, nodes, startCharOffset =>
    let chkParse := InputTree.mk term ntInfo so eo children
    let childOffset := headPosFromTree chkParse
    let r := traverseChildren headPosFromTree childOffset startCharOffset children 0
      (rootNode chkParse) nodes
    r.2 ++ [r.1]

/-- The `for` loop over `children` inside `addRootNodeAndTraverse`, carrying `childIndex`,
`myNode` and `nodes_`. -/
def traverseChildren (headPosFromTree : InputTree → Int) (childOffset startCharOffset : Int) :
    List InputTree → Int → Node → List Node → Node × List Node
  | [], _, myNode, nodes => (myNode, nodes)
  | subTree :: rest, childIndex, myNode, nodes =>
    let myNode1 := { myNode with isset := { myNode.isset with children := true } }
    let nodes1 := addRootNodeAndTraverse headPosFromTree subTree nodes startCharOffset
    let myNode2 := addChildEdge childOffset childIndex myNode1 nodes1
    traverseChildren headPosFromTree childOffset startCharOffset rest (childIndex + 1)
      myNode2 nodes1

end

/-- Sample: a parent with two leaf children, head position 1. -/
def sampleTree : InputTree :=
  .mk "NP" "" 0 7 [.mk "DT" "" 0 3 [], .mk "NN" "" 4 7 []]

/-! ## Counting the nodes of a native tree -/

mutual

/-- Number of native nodes that have at least one subtree. -/
def internalNodes : InputTree → Nat
  | InputTree.mk _ _ _ _ children =>
    (if children.isEmpty then 0 else 1) + internalNodesList children

/-- Internal nodes of a list of sibling trees. -/
def internalNodesList : List InputTree → Nat
  | [] => 0
  | subTree :: rest => internalNodes subTree + internalNodesList rest

end

mutual

/-- Number of native nodes without subtrees. -/
def leaves : InputTree → Nat
  | InputTree.mk _ _ _ _ children =>
    (if children.isEmpty then 1 else 0) + leavesList children

/-- Leaves of a list of sibling trees. -/
def leavesList : List InputTree → Nat
  | [] => 0
  | subTree :: rest => leaves subTree + leavesList rest

end

mutual

/-- The native nodes of a tree in post-order: the subtrees from left to right, then the
node itself. -/
def postOrder : InputTree → List InputTree
  | InputTree.mk term ntInfo so eo children =>
    postOrderList children ++ [InputTree.mk term ntInfo so eo children]

/-- Post-order of a list of sibling trees. -/
def postOrderList : List InputTree → List InputTree
  | [] => []
  | subTree :: rest => postOrder subTree ++ postOrderList rest

end

/-- The record `n` carries the label and span of the native node `s`, and no children
when `s` is a leaf. -/
def RecordOf (n : Node) (s : InputTree) : Prop :=
  n.label = s.term ++ s.ntInfo ∧
  n.span = ⟨s.startOffset, s.endOffset⟩ ∧
  n.isset.span = true ∧
  (s.subTrees = [] → n.children = [] ∧ n.isset.children = false)

/-- Number of entries of a children mapping that carry the edge label `"HEAD"`. -/
def headCount (m : List (Int × String)) : Nat :=
  m.countP (fun e => e.2 = "HEAD")

/-! ## The invariant of the flattener -/

/-- What holds of the record stored at index `i` of the node list. -/
structure NodeInv (i : Nat) (n : Node) : Prop where
  keys_lt : ∀ e ∈ n.children, e.1 < (i : Int)
  keys_nonneg : ∀ e ∈ n.children, 0 ≤ e.1
  head_le_one : headCount n.children ≤ 1
  labels : ∀ e ∈ n.children, e.2 = "HEAD" ∨ e.2 = ""
  flag : n.children = [] ↔ n.isset.children = false

/-- What holds of `myNode` before the loop iteration with index `childIndex`, when the node
list has `len` entries. -/
structure LoopInv (len : Nat) (childOffset childIndex : Int) (n : Node) : Prop where
  keys_lt : ∀ e ∈ n.children, e.1 < (len : Int)
  keys_nonneg : ∀ e ∈ n.children, 0 ≤ e.1
  head_le_one : headCount n.children ≤ 1
  head_zero : childIndex ≤ childOffset → headCount n.children = 0
  labels : ∀ e ∈ n.children, e.2 = "HEAD" ∨ e.2 = ""
  flag : n.children = [] ↔ n.isset.children = false

/-! ## Trees, forests and records -/

/-- Presence flags of the optional fields of a Thrift `Tree`. -/
structure TreeIsset where
  source : Bool
  score : Bool
  deriving DecidableEq

/-- Thrift `Tree`: the flattened parse of one sentence; `α` stands for `double`. -/
structure Tree (α : Type) where
  nodes : List Node
  top : Int
  source : String
  score : α
  isset : TreeIsset

/-- A default-constructed `Tree` (the state of `Tree parseTree;`). -/
def Tree.init {α : Type} [Zero α] : Tree α :=
  { nodes := [], top := 0, source := "", score := 0, isset := ⟨false, false⟩ }

/-- Presence flags of the optional fields of a Thrift `Forest`. -/
structure ForestIsset where
  rawText : Bool
  source : Bool
  deriving DecidableEq

/-- Thrift `Forest`: the parses of a document. -/
structure Forest (α : Type) where
  trees : List (Tree α)
  rawText : String
  source : String
  isset : ForestIsset

/-- A default-constructed `Forest`, as the service boundary hands it to `parseRecord`. -/
def Forest.init {α : Type} : Forest α :=
  { trees := [], rawText := "", source := "", isset := ⟨false, false⟩ }

/-- Thrift `Labeling`: the list of spans of a view. -/
structure Labeling where
  labels : List Span
  deriving DecidableEq

/-- Thrift `Record`: the document text and its `map<string, Labeling>` of views. -/
structure Record where
  rawText : String
  labelViews : List (String × Labeling)
  deriving DecidableEq

/-- A token handed to the parser: `StringWithOffsets(tokenStr, start, ending)`. -/
structure StringWithOffsets where
  str : String
  start : Int
  ending : Int
  deriving DecidableEq

/-- Exceptions that can leave the handler. -/
inductive Failure where
  | annotationFailed (reason : String)
  | outOfRange
  deriving DecidableEq

/-- An entry of the log of calls to the two parsing entry points. -/
inductive Call (SentRep : Type) where
  | parseSentence (input : String) (startCharOffset : Int)
  | parseTokenizedSentence (srp : SentRep) (startCharOffset : Int)
  deriving DecidableEq

/-- The state after a method has run: the calls to the parsing entry points made while it
ran, the out-parameter, and the exception that left the method, if any. -/
structure Run (SentRep σ : Type) where
  calls : List (Call SentRep)
  out : σ
  thrown : Option Failure

/-! ## What the handler takes from outside -/

/-- The two `libm` functions the handler calls on `double` values. -/
structure Libm (α : Type) where
  log : α → α
  log2 : α → α

/-- The collaborators of the handler: the static configuration, the sentence representation
and the chart of the parser, the head finder, `iconv`, and `libm`.  A `CharniakException`
raised by the chart is the `Except.error` of the three chart stages, carrying `what()`. -/
structure Setup (SentRep α : Type) where
  tokenize : Bool
  maxSentLen : Int
  SENT_VIEW : String
  TOK_VIEW : String
  sentRepOfTokens : List StringWithOffsets → SentRep
  sentRepOfStream : String → Bool → SentRep
  length : SentRep → Int
  topS : SentRep → Except String Bool
  findMapParse : SentRep → Except String α
  inputTreeFromAnsTree : SentRep → Except String InputTree
  headPosFromTree : InputTree → Int
  iconv_open : String → String → Bool
  iconv : String → String → String → Int
  libm : Libm α

/-- The constant `SHORT_NAME`. -/
def SHORT_NAME : String := "charniak"

/-- The constant `VERSION`. -/
def VERSION : String := "0.7"

/-- The method `getSourceIdentifier`. -/
def getSourceIdentifier : String := SHORT_NAME ++ "-" ++ VERSION

/-- The constant `log600 = log2(600.0)`. -/
def log600 {α : Type} [IntCast α] (libm : Libm α) : α :=
  libm.log2 ((600 : Int) : α)

/-- The score computed in `parseTokenizedSentence`: `log(probs[0])` minus the sentence
length times `log600`. -/
def logP {α : Type} [Sub α] [Mul α] [IntCast α] (libm : Libm α) (prob : α) (len : Int) : α :=
  libm.log prob - (len : α) * log600 libm

/-! ## Strings -/

/-- Conversion of an `int` argument to `size_t` (64 bits). -/
def toSizeT (i : Int) : Nat := (i % 18446744073709551616).toNat

/-- The call `s.substr(pos, len)`: `std::out_of_range` when `pos` exceeds the size, and the
characters from `pos` on, at most `len` of them, otherwise. -/
def substr (s : String) (pos len : Nat) : Except Failure String :=
  if pos > s.length then .error .outOfRange
  else .ok (String.mk ((s.data.drop pos).take len))

/-! ## `ParserHandler::checkEncodedStringIsCompatible` and `getLabelView` -/

/-- The method `checkEncodedStringIsCompatible`; the error is the reason of the
`AnnotationFailedException` it throws. -/
def checkEncodedStringIsCompatible {SentRep α : Type} (env : Setup SentRep α)
    (str inputEncoding outputEncoding : String) : Except String Bool :=
  if !env.iconv_open inputEncoding outputEncoding then
    .error ("ERROR: charniakThriftServer::checkEncodedStringIsCompatible():"
      ++ " no conversion available from " ++ inputEncoding
      ++ " to " ++ outputEncoding ++ ".\n")
  else
    let rc := env.iconv inputEncoding outputEncoding str
    if rc = -1 then
      .error ("ERROR: charniakThriftServer::checkEncodedStringIsCompatible():"
        ++ " could not convert characters from " ++ inputEncoding
        ++ " to " ++ outputEncoding ++ ".\n")
    else if rc > 0 then .ok false
    else .ok true

/-- The method `getLabelView`: the view stored under the name, or a default-constructed
`Labeling` when the record has none. -/
def getLabelView (record : Record) (viewName : String) : Labeling :=
  match record.labelViews.lookup viewName with
  | some view => view
  | none => { labels := [] }

/-! ## `ParserHandler::parseTokenizedSentence` and `parseSentence` -/

section Handler

variable {SentRep α : Type} [Zero α] [LE α] [DecidableRel (fun (a b : α) => a ≤ b)]
  [Sub α] [Mul α] [IntCast α]

/-- The `catch (CharniakException & e)` handler of `parseTokenizedSentence`. -/
def caughtCharniakException (what : String) : Failure :=
  .annotationFailed ("ERROR: charniakThriftServer::parseTokenizedSetnence(): "
    ++ "caught CharniakException: " ++ what ++ "\n")

/-- The method `parseTokenizedSentence(parseTree_, srp_, startCharOffset_)`. -/
def parseTokenizedSentence (env : Setup SentRep α)
    (parseTree : Tree α) (srp : SentRep) (startCharOffset : Int) : Run SentRep (Tree α) :=
  let calls := [Call.parseTokenizedSentence srp startCharOffset]
  let len := env.length srp
  if len > env.maxSentLen then
    ⟨calls, parseTree, some (.annotationFailed "input too long.")⟩
  else if len = 0 then
    ⟨calls, parseTree, some (.annotationFailed "input had zero length.")⟩
  else
    match env.topS srp with
    | .error what => ⟨calls, parseTree, some (caughtCharniakException what)⟩
    | .ok false => ⟨calls, parseTree, some (.annotationFailed "parse failed.")⟩
    | .ok true =>
      match env.findMapParse srp with
      | .error what => ⟨calls, parseTree, some (caughtCharniakException what)⟩
      | .ok prob =>
        if prob ≤ 0 then
          ⟨calls, parseTree, some (.annotationFailed "mapProbs did not return answer")⟩
        else
          match env.inputTreeFromAnsTree srp with
          | .error what => ⟨calls, parseTree, some (caughtCharniakException what)⟩
          | .ok mapparse =>
            let nodes := addRootNodeAndTraverse env.headPosFromTree mapparse parseTree.nodes
              startCharOffset
            let parseTree1 : Tree α :=
              { parseTree with
                source := getSourceIdentifier
                score := logP env.libm prob (env.length srp)
                isset := ⟨true, true⟩
                nodes := nodes }
            if !nodes.isEmpty then
              ⟨calls, { parseTree1 with top := (nodes.length : Int) - 1 }, none⟩
            else
              ⟨calls, parseTree1, none⟩

/-- The method `parseSentence(parseTree_, input_, startCharOffset_)`. -/
def parseSentence (env : Setup SentRep α)
    (parseTree : Tree α) (input : String) (startCharOffset : Int) : Run SentRep (Tree α) :=
  let calls := [Call.parseSentence input startCharOffset]
  match checkEncodedStringIsCompatible env input "UTF-8" "ASCII" with
  | .error reason =>
    ⟨calls, parseTree, some (.annotationFailed (reason ++ "parseSentence().\n"))⟩
  | .ok isInputOk =>
    if !isInputOk then
      ⟨calls, parseTree, some (.annotationFailed
        ("ERROR: charniakThriftServer::parseSentence(): "
          ++ "detected non-ascii input in UTF-8 string \x27"
          ++ input ++ "\x27. Charniak can\x27t deal with it. \n"
          ++ "Try cleaning non-ascii characters from your input first.\n"))⟩
    else
      let srp := env.sentRepOfStream ("<s> " ++ input ++ " </s>\n") env.tokenize
      let r := parseTokenizedSentence env parseTree srp startCharOffset
      ⟨calls ++ r.calls, r.out, r.thrown⟩

/-! ## `ParserHandler::parseRecord` -/

/-- The inner loop of `parseRecord` over the token spans `labels`, for the sentence span
`(start, end)`; `tokenVec` is the vector built so far. -/
def tokenLoop (sentenceText : String) (start end_ : Int) :
    List Span → List StringWithOffsets → Except Failure (List StringWithOffsets)
  | [], tokenVec => .ok tokenVec
  | span :: rest, tokenVec =>
    let length := span.ending - span.start
    if span.start < start ∨ span.start > end_ ∨ span.ending < start ∨ span.ending > end_ then
      tokenLoop sentenceText start end_ rest tokenVec
    else
      match substr sentenceText (toSizeT span.start) (toSizeT length) with
      | .error e => .error e
      | .ok tokenStr =>
        tokenLoop sentenceText start end_ rest
          (tokenVec ++ [StringWithOffsets.mk tokenStr span.start span.ending])

/-- The token vector of one iteration of the outer loop: filled by `tokenLoop` when
`Bchart::tokenize` is false, and left empty otherwise. -/
def buildTokenVec (env : Setup SentRep α) (sentenceText : String) (tokens : Labeling)
    (start end_ : Int) : Except Failure (List StringWithOffsets) :=
  if !env.tokenize then tokenLoop sentenceText start end_ tokens.labels []
  else .ok []

/-- The parse step of one iteration of the outer loop, on a fresh `Tree parseTree`. -/
def parseStep (env : Setup SentRep α) (sentenceText : String)
    (tokenVec : List StringWithOffsets) (start : Int) : Run SentRep (Tree α) :=
  if env.tokenize then
    parseSentence env Tree.init sentenceText start
  else
    parseTokenizedSentence env Tree.init (env.sentRepOfTokens tokenVec) start

/-- One iteration of the outer loop up to the `push_back`: the token vector is built, then
the sentence is parsed into the local `parseTree`, which is the out-value. -/
def sentenceBody (env : Setup SentRep α) (sentenceText : String) (tokens : Labeling)
    (sentence : Span) : Run SentRep (Tree α) :=
  let start := sentence.start
  let end_ := sentence.ending
  match buildTokenVec env sentenceText tokens start end_ with
  | .error e => ⟨[], Tree.init, some e⟩
  | .ok tokenVec => parseStep env sentenceText tokenVec start

/-- The outer loop of `parseRecord` over the sentence spans: an exception of the body leaves
the loop with `_parses` as it is, and a parsed tree is pushed onto `_parses.trees`. -/
def sentenceLoop (env : Setup SentRep α) (sentenceText : String) (tokens : Labeling) :
    List Span → Forest α → Run SentRep (Forest α)
  | [], parses => ⟨[], parses, none⟩
  | sentence :: rest, parses =>
    let r := sentenceBody env sentenceText tokens sentence
    match r.thrown with
    | some e => ⟨r.calls, parses, some e⟩
    | none =>
      let r1 := sentenceLoop env sentenceText tokens rest
        { parses with trees := parses.trees ++ [r.out] }
      ⟨r.calls ++ r1.calls, r1.out, r1.thrown⟩

/-- The method `parseRecord(_parses, record_)`. -/
def parseRecord (env : Setup SentRep α) (parses : Forest α)
    (record : Record) : Run SentRep (Forest α) :=
  let sentenceText := record.rawText
  let sentences := getLabelView record env.SENT_VIEW
  let tokens := getLabelView record env.TOK_VIEW
  if 0 = sentences.labels.length then
    ⟨[], parses, some (.annotationFailed
      ("ERROR: charniakThriftServer::parseRecord(): "
        ++ "no sentences in record (sentences.labels.size() is zero); "
        ++ "raw text is: \x27\n" ++ sentenceText ++ "\x27. \n"))⟩
  else
    let r := sentenceLoop env sentenceText tokens sentences.labels parses
    match r.thrown with
    | some e => ⟨r.calls, r.out, some e⟩
    | none =>
      ⟨r.calls,
        { r.out with
          source := getSourceIdentifier
          rawText := record.rawText
          isset := ⟨true, true⟩ },
        none⟩

end Handler


/-! ## The segmentation as the specification words it -/

/-- Both endpoints of the token span lie within the sentence boundary, inclusive. -/
def withinSentence (start end_ : Int) (t : Span) : Bool :=
  decide (start ≤ t.start ∧ t.start ≤ end_ ∧ start ≤ t.ending ∧ t.ending ≤ end_)

/-- The start of the token span is a position of the document text, so that `substr` does
not throw there. -/
def startsInText (documentText : String) (t : Span) : Bool :=
  decide (toSizeT t.start ≤ documentText.length)

/-- The token of a span: the characters of `documentText.substr(t.start, t.ending - t.start)`
paired with the offsets of the span. -/
def tokenOf (documentText : String) (t : Span) : StringWithOffsets :=
  StringWithOffsets.mk
    (String.mk ((documentText.data.drop (toSizeT t.start)).take
      (toSizeT (t.ending - t.start))))
    t.start t.ending

/-! ## Unflattening -/

/-- What the flattened form keeps of a native tree: the label `term + ntInfo`, the span, and
the subtrees in their order. -/
inductive LabelledTree where
  | mk (label : String) (span : Span) (children : List LabelledTree)

mutual

/-- The labelled tree of a native tree. -/
def erase : InputTree → LabelledTree
  | InputTree.mk term ntInfo so eo children =>
    LabelledTree.mk (term ++ ntInfo) ⟨so, eo⟩ (eraseList children)

/-- The labelled trees of a list of sibling trees. -/
def eraseList : List InputTree → List LabelledTree
  | [] => []
  | subTree :: rest => erase subTree :: eraseList rest

end

/-- Apply `f` to every element, failing as soon as one application fails. -/
def mapOption {β γ : Type} (f : β → Option γ) : List β → Option (List γ)
  | [] => some []
  | b :: bs =>
    match f b with
    | none => none
    | some c =>
      match mapOption f bs with
      | none => none
      | some cs => some (c :: cs)

/-- Rebuild the tree below the record at index `i`: its label and span, and below it the
trees rebuilt at the keys of its children mapping, in key order.  `fuel` bounds the depth. -/
def unflattenAt (nodes : List Node) : Nat → Int → Option LabelledTree
  | 0, _ => none
  | fuel + 1, i =>
    if i < 0 then none
    else
      match nodes[i.toNat]? with
      | none => none
      | some n =>
        match mapOption (unflattenAt nodes fuel) (n.children.map Prod.fst) with
        | none => none
        | some cs => some (LabelledTree.mk n.label n.span cs)

/-- Rebuild the tree of a node list from its last record, the root. -/
def unflatten (nodes : List Node) : Option LabelledTree :=
  unflattenAt nodes nodes.length ((nodes.length : Int) - 1)

mutual

/-- The record at index `i` of `nodes` is the record of the native tree `t`: it carries the
label and span of `t`, and the keys of its children mapping are, in key order, the indices
of the records of the subtrees of `t`, one per subtree, each below `i`. -/
def Represents (nodes : List Node) : InputTree → Int → Prop
  | InputTree.mk term ntInfo so eo children, i =>
    ∃ n : Node, 0 ≤ i ∧ nodes[i.toNat]? = some n ∧
      n.label = term ++ ntInfo ∧ n.span = ⟨so, eo⟩ ∧
      RepresentsList nodes children (n.children.map Prod.fst) 0 i

/-- The keys `ks` are, in order, the indices of the records of the sibling trees: as many
keys as trees, strictly increasing, the first at least `lo` and all below `hi`. -/
def RepresentsList (nodes : List Node) : List InputTree → List Int → Int → Int → Prop
  | [], ks, _, _ => ks = []
  | subTree :: rest, ks, lo, hi =>
    ∃ (k : Int) (ks1 : List Int), ks = k :: ks1 ∧ lo ≤ k ∧ k < hi ∧
      Represents nodes subTree k ∧ RepresentsList nodes rest ks1 (k + 1) hi

end

/-! ## Sample inputs -/

/-- A sample configuration: a sentence representation is its list of tokens, the stream
reader yields the whole input as one token, the chart answers with probability `prob` and
a tree with one leaf per token under an `S1` root, or with no top item when `parseOk` is
false. -/
def sampleSetupWith {α : Type} (libm : Libm α) (prob : α) (tokenize parseOk : Bool) :
    Setup (List StringWithOffsets) α where
  tokenize := tokenize
  maxSentLen := 100
  SENT_VIEW := "sentences"
  TOK_VIEW := "tokens"
  sentRepOfTokens := fun tokenVec => tokenVec
  sentRepOfStream := fun s _ => [StringWithOffsets.mk s 0 0]
  length := fun srp => (srp.length : Int)
  topS := fun _ => .ok parseOk
  findMapParse := fun _ => .ok prob
  inputTreeFromAnsTree := fun srp =>
    .ok (InputTree.mk "S1" "" 0 0
      (srp.map (fun w => InputTree.mk w.str "" w.start w.ending [])))
  headPosFromTree := fun _ => 0
  iconv_open := fun _ _ => true
  iconv := fun _ _ _ => 0
  libm := libm

/-- The sample configuration over the integers, with probability `1` and logarithms that
are constantly zero. -/
def sampleSetup (tokenize parseOk : Bool) : Setup (List StringWithOffsets) Int :=
  sampleSetupWith ⟨fun _ => 0, fun _ => 0⟩ 1 tokenize parseOk

/-- A sample record: two sentences, four tokens, and a fifth span across the boundary. -/
def sampleRecord : Record where
  rawText := "A b. C d."
  labelViews :=
    [("sentences", ⟨[⟨0, 4⟩, ⟨5, 9⟩]⟩),
     ("tokens", ⟨[⟨0, 1⟩, ⟨2, 4⟩, ⟨3, 6⟩, ⟨5, 6⟩, ⟨7, 9⟩]⟩)]

/-- A sample record with two adjacent sentences `(0, 5)` and `(5, 10)` and one empty token
span `(5, 5)` on their shared boundary. -/
def adjacentRecord : Record where
  rawText := "0123456789"
  labelViews :=
    [("sentences", ⟨[⟨0, 5⟩, ⟨5, 10⟩]⟩),
     ("tokens", ⟨[⟨5, 5⟩]⟩)]

/-- The sentence spans of the segmentation example. -/
def exampleSentences : List Span := [⟨0, 5⟩, ⟨6, 11⟩]

/-- The token spans of the segmentation example; `(4, 7)` lies across the boundary. -/
def exampleTokens : Labeling := ⟨[⟨0, 1⟩, ⟨2, 4⟩, ⟨4, 7⟩, ⟨6, 8⟩, ⟨9, 11⟩]⟩

/-! # Theorems -/

/-! ## Lemmas on `mapInsert` -/

theorem mem_mapInsert {m : List (Int × String)} {k : Int} {v : String} {e : Int × String}
    (h : e ∈ mapInsert m k v) : e ∈ m ∨ e = (k, v) := by
  induction m with
  | nil =>
    simp only [mapInsert, List.mem_singleton] at h
    exact Or.inr h
  | cons a rest ih =>
    simp only [mapInsert] at h
    split_ifs at h with h1 h2
    · rcases List.mem_cons.1 h with h | h
      · exact Or.inr h
      · exact Or.inl h
    · exact Or.inl h
    · rcases List.mem_cons.1 h with h | h
      · exact Or.inl (h ▸ List.mem_cons_self _ _)
      · rcases ih h with h | h
        · exact Or.inl (List.mem_cons_of_mem _ h)
        · exact Or.inr h

theorem mapInsert_ne_nil (m : List (Int × String)) (k : Int) (v : String) :
    mapInsert m k v ≠ [] := by
  cases m with
  | nil => simp [mapInsert]
  | cons a rest =>
    simp only [mapInsert]
    split_ifs <;> simp

theorem headCount_mapInsert_le (m : List (Int × String)) (k : Int) (v : String) :
    headCount (mapInsert m k v) ≤ headCount m + (if v = "HEAD" then 1 else 0) := by
  induction m with
  | nil =>
    by_cases hv : v = "HEAD" <;> simp [mapInsert, headCount, List.countP_cons, hv]
  | cons a rest ih =>
    simp only [mapInsert]
    unfold headCount at ih ⊢
    split_ifs with h1 h2 h3 h4 h5
    all_goals simp only [List.countP_cons, List.countP_nil] at ih ⊢
    all_goals simp_all
    all_goals omega

theorem LoopInv.rootNode (chkParse : InputTree) (len : Nat) (childOffset : Int) :
    LoopInv len childOffset 0 (rootNode chkParse) := by
  constructor <;> simp [Charniak.rootNode, Node.init, headCount]

theorem LoopInv.toNodeInv {len i : Nat} {co ci : Int} {n : Node} (h : LoopInv len co ci n)
    (hle : len ≤ i) : NodeInv i n where
  keys_lt := fun e he => by have := h.keys_lt e he; omega
  keys_nonneg := h.keys_nonneg
  head_le_one := h.head_le_one
  labels := h.labels
  flag := h.flag

theorem LoopInv.step {len len1 : Nat} {co ci : Int} {n : Node} {nodes1 : List Node}
    (h : LoopInv len co ci n) (hlen : nodes1.length = len1) (hlt : len < len1) :
    LoopInv len1 co (ci + 1)
      (addChildEdge co ci { n with isset := { n.isset with children := true } } nodes1) := by
  have hk : ∀ v e, e ∈ mapInsert n.children ((nodes1.length : Int) - 1) v →
      e ∈ n.children ∨ e = ((nodes1.length : Int) - 1, v) := fun v e he => mem_mapInsert he
  unfold addChildEdge
  by_cases hc : co = ci
  · simp only [hc, if_true]
    refine ⟨?_, ?_, ?_, ?_, ?_, ?_⟩ <;> dsimp only
    · intro e he
      rcases hk _ e he with h1 | h1
      · have := h.keys_lt e h1; omega
      · subst h1; simp only; omega
    · intro e he
      rcases hk _ e he with h1 | h1
      · exact h.keys_nonneg e h1
      · subst h1; simp only; omega
    · have h0 := h.head_zero (by omega)
      have := headCount_mapInsert_le n.children ((nodes1.length : Int) - 1) "HEAD"
      simp only [if_true] at this
      omega
    · intro h2; omega
    · intro e he
      rcases hk _ e he with h1 | h1
      · exact h.labels e h1
      · subst h1; exact Or.inl rfl
    · simp [mapInsert_ne_nil]
  · simp only [hc, if_false]
    refine ⟨?_, ?_, ?_, ?_, ?_, ?_⟩ <;> dsimp only
    · intro e he
      rcases hk _ e he with h1 | h1
      · have := h.keys_lt e h1; omega
      · subst h1; simp only; omega
    · intro e he
      rcases hk _ e he with h1 | h1
      · exact h.keys_nonneg e h1
      · subst h1; simp only; omega
    · have := headCount_mapInsert_le n.children ((nodes1.length : Int) - 1) ""
      have h1 := h.head_le_one
      simp at this
      omega
    · intro h2
      have h0 := h.head_zero (by omega)
      have := headCount_mapInsert_le n.children ((nodes1.length : Int) - 1) ""
      simp at this
      omega
    · intro e he
      rcases hk _ e he with h1 | h1
      · exact h.labels e h1
      · subst h1; exact Or.inr rfl
    · simp [mapInsert_ne_nil]

mutual

theorem addRootNodeAndTraverse_inv (hp : InputTree → Int) :
    ∀ (t : InputTree) (nodes : List Node) (off : Int),
      ∃ app : List Node, ∃ last : Node,
        addRootNodeAndTraverse hp t nodes off = nodes ++ (app ++ [last]) ∧
        app.length + 1 = internalNodes t + leaves t ∧
        last.label = t.term ++ t.ntInfo ∧
        last.span = ⟨t.startOffset, t.endOffset⟩ ∧
        last.isset.span = true ∧
        (t.subTrees = [] → last.children = [] ∧ last.isset.children = false ∧ app = []) ∧
        List.Forall₂ RecordOf (app ++ [last]) (postOrder t) ∧
        ∀ (j : Nat) (n : Node), (app ++ [last])[j]? = some n → NodeInv (nodes.length + j) n
  | InputTree.mk term ntInfo so eo children, nodes, off => by
    obtain ⟨app, hEq, hLen, hLab, hSpan, hIs, hLeaf, hInv, hRec, hAll⟩ :=
      traverseChildren_inv hp (hp (InputTree.mk term ntInfo so eo children)) off children 0
        (rootNode (InputTree.mk term ntInfo so eo children)) nodes
        (LoopInv.rootNode _ _ _)
    refine ⟨app, (traverseChildren hp (hp (InputTree.mk term ntInfo so eo children)) off
      children 0 (rootNode (InputTree.mk term ntInfo so eo children)) nodes).1,
      ?_, ?_, ?_, ?_, ?_, ?_, ?_, ?_⟩
    · simp only [addRootNodeAndTraverse]
      rw [hEq, List.append_assoc]
    · simp only [internalNodes, leaves]
      cases children <;> simp at hLen ⊢ <;> omega
    · rw [hLab]; rfl
    · rw [hSpan]; rfl
    · rw [hIs]; rfl
    · intro hnil
      simp only [InputTree.subTrees] at hnil
      exact hLeaf hnil
    · simp only [postOrder]
      refine List.rel_append hRec (List.Forall₂.cons ⟨?_, ?_, ?_, ?_⟩ List.Forall₂.nil)
      · rw [hLab]; rfl
      · rw [hSpan]; rfl
      · rw [hIs]; rfl
      · intro hnil
        simp only [InputTree.subTrees] at hnil
        exact ⟨(hLeaf hnil).1, (hLeaf hnil).2.1⟩
    · intro j n hj
      by_cases hjl : j < app.length
      · rw [List.getElem?_append_left hjl] at hj
        exact hAll j n hj
      · have hj2 : j = app.length := by
          by_contra hne
          have : (app ++ [(traverseChildren hp (hp (InputTree.mk term ntInfo so eo children))
              off children 0 (rootNode (InputTree.mk term ntInfo so eo children)) nodes).1])[j]?
              = none := by
            apply List.getElem?_eq_none
            simp; omega
          rw [this] at hj; exact Option.noConfusion hj
        subst hj2
        simp at hj
        subst hj
        exact hInv.toNodeInv (by rw [← List.length_append, ← hEq])

theorem traverseChildren_inv (hp : InputTree → Int) (co off : Int) :
    ∀ (cs : List InputTree) (ci : Int) (myNode : Node) (nodes : List Node),
      LoopInv nodes.length co ci myNode →
      ∃ app : List Node,
        (traverseChildren hp co off cs ci myNode nodes).2 = nodes ++ app ∧
        app.length = internalNodesList cs + leavesList cs ∧
        (traverseChildren hp co off cs ci myNode nodes).1.label = myNode.label ∧
        (traverseChildren hp co off cs ci myNode nodes).1.span = myNode.span ∧
        (traverseChildren hp co off cs ci myNode nodes).1.isset.span = myNode.isset.span ∧
        (cs = [] → (traverseChildren hp co off cs ci myNode nodes).1.children = myNode.children
          ∧ (traverseChildren hp co off cs ci myNode nodes).1.isset.children
              = myNode.isset.children ∧ app = []) ∧
        LoopInv (traverseChildren hp co off cs ci myNode nodes).2.length co
          (ci + cs.length) (traverseChildren hp co off cs ci myNode nodes).1 ∧
        List.Forall₂ RecordOf app (postOrderList cs) ∧
        ∀ (j : Nat) (n : Node), app[j]? = some n → NodeInv (nodes.length + j) n
  | [], ci, myNode, nodes, h => by
    refine ⟨[], ?_, ?_, ?_, ?_, ?_, ?_, ?_, ?_, ?_⟩ <;>
      simp [traverseChildren, internalNodesList, leavesList, postOrderList]
    exact h
  | subTree :: rest, ci, myNode, nodes, h => by
    obtain ⟨app1, last1, hEq1, hLen1, -, -, -, -, hRec1, hAll1⟩ :=
      addRootNodeAndTraverse_inv hp subTree nodes off
    have hlen : (addRootNodeAndTraverse hp subTree nodes off).length
        = nodes.length + (app1.length + 1) := by
      rw [hEq1]; simp
    have hstep : LoopInv (addRootNodeAndTraverse hp subTree nodes off).length co (ci + 1)
        (addChildEdge co ci { myNode with isset := { myNode.isset with children := true } }
          (addRootNodeAndTraverse hp subTree nodes off)) :=
      LoopInv.step h rfl (by omega)
    obtain ⟨app2, hEq2, hLen2, hLab2, hSpan2, hIs2, -, hInv2, hRec2, hAll2⟩ :=
      traverseChildren_inv hp co off rest (ci + 1) _ _ hstep
    refine ⟨(app1 ++ [last1]) ++ app2, ?_, ?_, ?_, ?_, ?_, ?_, ?_, ?_, ?_⟩
    · simp only [traverseChildren]
      rw [hEq2, hEq1, List.append_assoc]
    · simp only [internalNodesList, leavesList, List.length_append, List.length_singleton]
      omega
    · simp only [traverseChildren]
      rw [hLab2]; unfold addChildEdge; split_ifs <;> rfl
    · simp only [traverseChildren]
      rw [hSpan2]; unfold addChildEdge; split_ifs <;> rfl
    · simp only [traverseChildren]
      rw [hIs2]; unfold addChildEdge; split_ifs <;> rfl
    · intro hnil; exact absurd hnil (List.cons_ne_nil _ _)
    · simp only [traverseChildren]
      have : ci + ((subTree :: rest).length : Int) = ci + 1 + (rest.length : Int) := by
        simp only [List.length_cons]; push_cast; ring
      rw [this]
      exact hInv2
    · simp only [postOrderList]
      exact List.rel_append hRec1 hRec2
    · intro j n hj
      by_cases hjl : j < (app1 ++ [last1]).length
      · rw [List.getElem?_append_left hjl] at hj
        exact hAll1 j n hj
      · rw [List.getElem?_append_right (by omega)] at hj
        have := hAll2 _ n hj
        rw [hlen] at this
        have heq : nodes.length + (app1.length + 1) + (j - (app1 ++ [last1]).length)
            = nodes.length + j := by
          simp only [List.length_append, List.length_singleton] at hjl ⊢
          omega
        rw [heq] at this
        exact this

end


/-! ## The flattener: claims on `addRootNodeAndTraverse` -/

theorem forall2_getElem {α β : Type} {R : α → β → Prop} {l₁ : List α} {l₂ : List β}
    (h : List.Forall₂ R l₁ l₂) (j : Nat) (a : α) (b : β)
    (ha : l₁[j]? = some a) (hb : l₂[j]? = some b) : R a b := by
  induction h generalizing j with
  | nil => simp at ha
  | cons hab _ ih =>
    cases j with
    | zero =>
      simp only [List.getElem?_cons_zero, Option.some.injEq] at ha hb
      subst ha; subst hb; exact hab
    | succ j =>
      simp only [List.getElem?_cons_succ] at ha hb
      exact ih j ha hb

/-- The call appends to the node list: the result is the initial list followed by one
record per native node, in post-order, each satisfying the invariant at its index. -/
theorem addRootNodeAndTraverse_appends (hp : InputTree → Int) (t : InputTree)
    (nodes : List Node) (off : Int) :
    ∃ app : List Node,
      addRootNodeAndTraverse hp t nodes off = nodes ++ app ∧
      app.length = internalNodes t + leaves t ∧
      List.Forall₂ RecordOf app (postOrder t) ∧
      ∀ (j : Nat) (n : Node), app[j]? = some n → NodeInv (nodes.length + j) n := by
  obtain ⟨app, last, hEq, hLen, -, -, -, -, hRec, hAll⟩ :=
    addRootNodeAndTraverse_inv hp t nodes off
  exact ⟨app ++ [last], hEq, by simpa using hLen, hRec, hAll⟩

/-- The record appended last is the one of the root of the native tree. -/
theorem addRootNodeAndTraverse_getLast (hp : InputTree → Int) (t : InputTree)
    (nodes : List Node) (off : Int) :
    ∃ n : Node, (addRootNodeAndTraverse hp t nodes off).getLast? = some n ∧
      n.label = t.term ++ t.ntInfo ∧ n.span = ⟨t.startOffset, t.endOffset⟩ := by
  obtain ⟨app, last, hEq, -, hLab, hSpan, -⟩ := addRootNodeAndTraverse_inv hp t nodes off
  refine ⟨last, ?_, hLab, hSpan⟩
  rw [hEq, ← List.append_assoc, List.getLast?_append]
  simp

/-- C1: for every native tree and every initial node list, the call keeps the initial
entries in place, and every key of the children mapping of a node it appended (a node at an
index `i` not below the initial length) is strictly less than `i`. -/
theorem addRootNodeAndTraverse_child_keys_lt (hp : InputTree → Int) (t : InputTree)
    (nodes : List Node) (off : Int) (i : Nat) (n : Node) (e : Int × String)
    (hi : nodes.length ≤ i)
    (hn : (addRootNodeAndTraverse hp t nodes off)[i]? = some n)
    (he : e ∈ n.children) :
    (addRootNodeAndTraverse hp t nodes off).take nodes.length = nodes ∧ e.1 < (i : Int) := by
  obtain ⟨app, hEq, -, -, hAll⟩ := addRootNodeAndTraverse_appends hp t nodes off
  rw [hEq] at hn ⊢
  refine ⟨by simp, ?_⟩
  rw [List.getElem?_append_right hi] at hn
  have h := (hAll _ n hn).keys_lt e he
  have : nodes.length + (i - nodes.length) = i := by omega
  rw [this] at h
  exact h

/-- Witness of C1: the sample tree flattened after one earlier entry; the parent lands at
index 3 and its head edge has key 2. -/
theorem addRootNodeAndTraverse_child_keys_lt_witness :
    [Node.init].length ≤ 3 ∧
    (addRootNodeAndTraverse (fun _ => 1) sampleTree [Node.init] 0)[3]?
      = some ⟨"NP", ⟨0, 7⟩, [(1, ""), (2, "HEAD")], ⟨true, true⟩⟩ ∧
    ((2 : Int), "HEAD") ∈ [((1 : Int), ""), ((2 : Int), "HEAD")] ∧
    ((addRootNodeAndTraverse (fun _ => 1) sampleTree [Node.init] 0).take [Node.init].length
        = [Node.init] ∧ ((2 : Int), "HEAD").1 < ((3 : Nat) : Int)) :=
  ⟨by decide, by decide, by decide,
    addRootNodeAndTraverse_child_keys_lt (fun _ => 1) sampleTree [Node.init] 0 3
      ⟨"NP", ⟨0, 7⟩, [(1, ""), (2, "HEAD")], ⟨true, true⟩⟩ (2, "HEAD")
      (by decide) (by decide) (by decide)⟩

/-- C2: for every native tree with `N` internal nodes and `L` leaves, flattening into an
empty node list yields exactly `N + L` entries, one per native node: the entries are, in
order, the records of the native nodes in post-order.  Flattening into any list adds that
many entries. -/
theorem addRootNodeAndTraverse_length (hp : InputTree → Int) (t : InputTree)
    (nodes : List Node) (off : Int) :
    (addRootNodeAndTraverse hp t [] off).length = internalNodes t + leaves t ∧
    List.Forall₂ RecordOf (addRootNodeAndTraverse hp t [] off) (postOrder t) ∧
    (addRootNodeAndTraverse hp t nodes off).length
      = nodes.length + (internalNodes t + leaves t) := by
  obtain ⟨app, hEq, hLen, -⟩ := addRootNodeAndTraverse_appends hp t nodes off
  obtain ⟨app0, hEq0, hLen0, hRec0, -⟩ := addRootNodeAndTraverse_appends hp t [] off
  rw [hEq, hEq0]
  refine ⟨by simp [hLen0], ?_, by simp [hLen]⟩
  simpa using hRec0

/-- C4: in the node list the flattener produces, the `j`-th appended record belongs to the
`j`-th native node in post-order (it carries the label and span of that node); at most one entry
of its children mapping is labelled `"HEAD"` and every other entry is labelled with the
empty string; and when the native node is a leaf the mapping is empty and its presence
flag is false. -/
theorem addRootNodeAndTraverse_head_edges (hp : InputTree → Int) (t : InputTree)
    (nodes : List Node) (off : Int) (j : Nat) (n : Node) (s : InputTree)
    (hn : (addRootNodeAndTraverse hp t nodes off)[nodes.length + j]? = some n)
    (hs : (postOrder t)[j]? = some s) :
    headCount n.children ≤ 1 ∧
    (∀ e ∈ n.children, e.2 = "HEAD" ∨ e.2 = "") ∧
    n.label = s.term ++ s.ntInfo ∧ n.span = ⟨s.startOffset, s.endOffset⟩ ∧
    (s.subTrees = [] → n.children = [] ∧ n.isset.children = false) := by
  obtain ⟨app, hEq, -, hRec, hAll⟩ := addRootNodeAndTraverse_appends hp t nodes off
  rw [hEq, List.getElem?_append_right (by omega)] at hn
  simp only [Nat.add_sub_cancel_left] at hn
  have hI := hAll j n hn
  obtain ⟨h1, h2, -, h4⟩ := forall2_getElem hRec j n s hn hs
  exact ⟨hI.head_le_one, hI.labels, h1, h2, h4⟩

/-- Witness of C4: the first record of the flattened sample tree is the one of the leaf
`DT`. -/
theorem addRootNodeAndTraverse_head_edges_witness :
    (addRootNodeAndTraverse (fun _ => 1) sampleTree [] 0)[([] : List Node).length + 0]?
      = some ⟨"DT", ⟨0, 3⟩, [], ⟨true, false⟩⟩ ∧
    (postOrder sampleTree)[0]? = some (InputTree.mk "DT" "" 0 3 []) ∧
    (headCount ([] : List (Int × String)) ≤ 1 ∧
      (∀ e ∈ ([] : List (Int × String)), e.2 = "HEAD" ∨ e.2 = "") ∧
      "DT" = (InputTree.mk "DT" "" 0 3 []).term ++ (InputTree.mk "DT" "" 0 3 []).ntInfo ∧
      (⟨0, 3⟩ : Span) = ⟨(InputTree.mk "DT" "" 0 3 []).startOffset,
        (InputTree.mk "DT" "" 0 3 []).endOffset⟩ ∧
      ((InputTree.mk "DT" "" 0 3 []).subTrees = [] →
        ([] : List (Int × String)) = [] ∧ false = false)) :=
  ⟨by decide, by rfl,
    addRootNodeAndTraverse_head_edges (fun _ => 1) sampleTree [] 0 0
      ⟨"DT", ⟨0, 3⟩, [], ⟨true, false⟩⟩ (InputTree.mk "DT" "" 0 3 []) (by decide) (by rfl)⟩


section HandlerTheorems

variable {SentRep α : Type} [Zero α] [LE α] [DecidableRel (fun (a b : α) => a ≤ b)]
  [Sub α] [Mul α] [IntCast α]

/-- What a successful run of `parseTokenizedSentence` went through, and the tree it leaves. -/
theorem parseTokenizedSentence_ok (env : Setup SentRep α) (parseTree : Tree α)
    (srp : SentRep) (off : Int)
    (h : (parseTokenizedSentence env parseTree srp off).thrown = none) :
    ¬ env.length srp > env.maxSentLen ∧ env.length srp ≠ 0 ∧ env.topS srp = .ok true ∧
    ∃ prob mapparse, env.findMapParse srp = .ok prob ∧ ¬ prob ≤ 0 ∧
      env.inputTreeFromAnsTree srp = .ok mapparse ∧
      (parseTokenizedSentence env parseTree srp off).out =
        { nodes := addRootNodeAndTraverse env.headPosFromTree mapparse parseTree.nodes off
          top := ((addRootNodeAndTraverse env.headPosFromTree mapparse parseTree.nodes
            off).length : Int) - 1
          source := getSourceIdentifier
          score := logP env.libm prob (env.length srp)
          isset := ⟨true, true⟩ } := by
  unfold parseTokenizedSentence at h ⊢
  dsimp only at h ⊢
  by_cases h1 : env.length srp > env.maxSentLen
  · rw [if_pos h1] at h; exact absurd h (by simp)
  rw [if_neg h1] at h ⊢
  by_cases h2 : env.length srp = 0
  · rw [if_pos h2] at h; exact absurd h (by simp)
  rw [if_neg h2] at h ⊢
  cases hT : env.topS srp with
  | error what => rw [hT] at h; exact absurd h (by simp)
  | ok b =>
    rw [hT] at h
    cases b with
    | false => exact absurd h (by simp)
    | true =>
      dsimp only at h ⊢
      cases hF : env.findMapParse srp with
      | error what => rw [hF] at h; exact absurd h (by simp)
      | ok prob =>
        rw [hF] at h
        dsimp only at h ⊢
        by_cases h3 : prob ≤ 0
        · rw [if_pos h3] at h; exact absurd h (by simp)
        rw [if_neg h3] at h ⊢
        cases hI : env.inputTreeFromAnsTree srp with
        | error what => rw [hI] at h; exact absurd h (by simp)
        | ok mapparse =>
          dsimp only
          refine ⟨h1, h2, rfl, prob, mapparse, rfl, h3, rfl, ?_⟩
          obtain ⟨app, hEq, hLen, -⟩ :=
            addRootNodeAndTraverse_appends env.headPosFromTree mapparse parseTree.nodes off
          have hne : (addRootNodeAndTraverse env.headPosFromTree mapparse parseTree.nodes
              off).isEmpty = false := by
            rw [hEq]
            cases app with
            | nil =>
              have : internalNodes mapparse + leaves mapparse ≠ 0 := by
                cases mapparse with
                | mk a b c d cs => cases cs <;> simp [internalNodes, leaves]
              simp at hLen; omega
            | cons x xs => cases parseTree.nodes <;> rfl
          rw [hne]
          rfl

/-- C3: for every successful `parseTokenizedSentence` call, whatever nodes the tree held on
entry, the returned node list is non-empty, `top` equals `length(nodes) - 1`, and the node
at index `top` carries the label `term + ntInfo` and the start and end offsets of the root
of the native tree the chart returned. -/
theorem parseTokenizedSentence_top_is_root (env : Setup SentRep α) (parseTree : Tree α)
    (srp : SentRep) (off : Int)
    (h : (parseTokenizedSentence env parseTree srp off).thrown = none) :
    ∃ (mapparse : InputTree) (n : Node),
      env.inputTreeFromAnsTree srp = .ok mapparse ∧
      (parseTokenizedSentence env parseTree srp off).out.nodes ≠ [] ∧
      (parseTokenizedSentence env parseTree srp off).out.top
        = ((parseTokenizedSentence env parseTree srp off).out.nodes.length : Int) - 1 ∧
      (parseTokenizedSentence env parseTree srp off).out.nodes[
        (parseTokenizedSentence env parseTree srp off).out.top.toNat]? = some n ∧
      n.label = mapparse.term ++ mapparse.ntInfo ∧
      n.span = ⟨mapparse.startOffset, mapparse.endOffset⟩ := by
  obtain ⟨-, -, -, prob, mapparse, -, -, hI, hOut⟩ :=
    parseTokenizedSentence_ok env parseTree srp off h
  obtain ⟨n, hLast, hLab, hSpan⟩ :=
    addRootNodeAndTraverse_getLast env.headPosFromTree mapparse parseTree.nodes off
  refine ⟨mapparse, n, hI, ?_, ?_, ?_, hLab, hSpan⟩
  · rw [hOut]
    intro hnil
    simp only at hnil
    rw [hnil] at hLast
    simp at hLast
  · rw [hOut]
  · rw [hOut]
    simp only
    rw [List.getLast?_eq_getElem?] at hLast
    rw [← hLast]
    congr 1
    omega

/-- Witness of C3: the sample chart on two tokens. -/
theorem parseTokenizedSentence_top_is_root_witness :
    (parseTokenizedSentence (sampleSetup false true) Tree.init
      [⟨"A", 0, 1⟩, ⟨"b.", 2, 4⟩] 0).thrown = none ∧
    ∃ (mapparse : InputTree) (n : Node),
      (sampleSetup false true).inputTreeFromAnsTree [⟨"A", 0, 1⟩, ⟨"b.", 2, 4⟩]
        = .ok mapparse ∧
      (parseTokenizedSentence (sampleSetup false true) Tree.init
        [⟨"A", 0, 1⟩, ⟨"b.", 2, 4⟩] 0).out.nodes ≠ [] ∧
      (parseTokenizedSentence (sampleSetup false true) Tree.init
        [⟨"A", 0, 1⟩, ⟨"b.", 2, 4⟩] 0).out.top
        = ((parseTokenizedSentence (sampleSetup false true) Tree.init
            [⟨"A", 0, 1⟩, ⟨"b.", 2, 4⟩] 0).out.nodes.length : Int) - 1 ∧
      (parseTokenizedSentence (sampleSetup false true) Tree.init
        [⟨"A", 0, 1⟩, ⟨"b.", 2, 4⟩] 0).out.nodes[
          (parseTokenizedSentence (sampleSetup false true) Tree.init
            [⟨"A", 0, 1⟩, ⟨"b.", 2, 4⟩] 0).out.top.toNat]? = some n ∧
      n.label = mapparse.term ++ mapparse.ntInfo ∧
      n.span = ⟨mapparse.startOffset, mapparse.endOffset⟩ :=
  ⟨by decide,
    parseTokenizedSentence_top_is_root (sampleSetup false true) Tree.init
      [⟨"A", 0, 1⟩, ⟨"b.", 2, 4⟩] 0 (by decide)⟩

/-! ## Segmentation: the token vector of a sentence -/

theorem substr_tokenOf (text : String) (t : Span) :
    substr text (toSizeT t.start) (toSizeT (t.ending - t.start)) =
      if startsInText text t then .ok (tokenOf text t).str else .error .outOfRange := by
  unfold substr startsInText tokenOf
  by_cases h : toSizeT t.start > text.length
  · rw [if_pos h, if_neg (by simp only [decide_eq_true_eq]; omega)]
  · rw [if_neg h, if_pos (by simp only [decide_eq_true_eq]; omega)]

theorem tokenLoop_eq (text : String) (start end_ : Int) (labels : List Span)
    (tokenVec : List StringWithOffsets) :
    tokenLoop text start end_ labels tokenVec =
      if (labels.filter (withinSentence start end_)).all (startsInText text) then
        .ok (tokenVec ++ (labels.filter (withinSentence start end_)).map (tokenOf text))
      else .error .outOfRange := by
  induction labels generalizing tokenVec with
  | nil => simp [tokenLoop]
  | cons span rest ih =>
    unfold tokenLoop
    dsimp only
    by_cases hc : span.start < start ∨ span.start > end_ ∨ span.ending < start ∨
        span.ending > end_
    · rw [if_pos hc, ih]
      have : withinSentence start end_ span = false := by
        unfold withinSentence; simp only [decide_eq_false_iff_not]; omega
      rw [List.filter_cons_of_neg (by simp [this])]
    · rw [if_neg hc]
      have : withinSentence start end_ span = true := by
        unfold withinSentence; simp only [decide_eq_true_eq]; omega
      rw [List.filter_cons_of_pos this, substr_tokenOf]
      by_cases hs : startsInText text span = true
      · rw [if_pos hs]
        dsimp only
        rw [ih]
        simp only [List.all_cons, hs, Bool.true_and, List.map_cons, List.append_assoc,
          List.singleton_append]
        rfl
      · rw [if_neg hs]
        simp only [List.all_cons, Bool.and_eq_true, hs, false_and, if_false]
        simp

/-- C5: in externally-tokenized mode, for every document text, token-span list and sentence
span `(start, end)`, the token vector built for the sentence is the sub-list, in original
order, of the token spans with `start <= t.start <= end` and `start <= t.ending <= end`,
each paired with the text `substr(t.start, t.ending - t.start)` and its own offsets; it is
built whenever `substr` does not throw on a selected span (the loop ends with
`std::out_of_range` otherwise), and it is what the parser is called on. -/
theorem buildTokenVec_eq_filter (env : Setup SentRep α) (text : String) (tokens : Labeling)
    (start end_ : Int) (h : env.tokenize = false) :
    buildTokenVec env text tokens start end_ =
      (if (tokens.labels.filter (withinSentence start end_)).all (startsInText text) then
        .ok ((tokens.labels.filter (withinSentence start end_)).map (tokenOf text))
      else .error .outOfRange) ∧
    (∀ t : Span, startsInText text t = true →
      substr text (toSizeT t.start) (toSizeT (t.ending - t.start))
        = .ok (tokenOf text t).str ∧
      (tokenOf text t).start = t.start ∧ (tokenOf text t).ending = t.ending) ∧
    (∀ tokenVec, buildTokenVec env text tokens start end_ = .ok tokenVec →
      (sentenceBody env text tokens ⟨start, end_⟩).calls
        = [Call.parseTokenizedSentence (env.sentRepOfTokens tokenVec) start]) := by
  refine ⟨?_, ?_, ?_⟩
  · unfold buildTokenVec
    rw [h]
    simp only [Bool.not_false, if_true]
    rw [tokenLoop_eq]
    simp
  · intro t ht
    rw [substr_tokenOf, if_pos ht]
    exact ⟨rfl, rfl, rfl⟩
  · intro tokenVec hv
    unfold sentenceBody
    dsimp only
    rw [hv]
    dsimp only
    unfold parseStep
    rw [h]
    simp only [Bool.false_eq_true, if_false]
    unfold parseTokenizedSentence
    dsimp only
    split_ifs
    · rfl
    · rfl
    · split
      · rfl
      · rfl
      · split
        · rfl
        · split_ifs
          · rfl
          · split
            · rfl
            · split_ifs <;> rfl

/-- Witness of C5: the first sentence `(0, 4)` of the sample record; the span `(3, 6)`
across the boundary is not selected. -/
theorem buildTokenVec_eq_filter_witness :
    (sampleSetup false true).tokenize = false ∧
    buildTokenVec (sampleSetup false true) "A b. C d."
        ⟨[⟨0, 1⟩, ⟨2, 4⟩, ⟨3, 6⟩, ⟨5, 6⟩, ⟨7, 9⟩]⟩ 0 4
      = .ok [⟨"A", 0, 1⟩, ⟨"b.", 2, 4⟩] :=
  ⟨by decide,
    (buildTokenVec_eq_filter (sampleSetup false true) "A b. C d."
      ⟨[⟨0, 1⟩, ⟨2, 4⟩, ⟨3, 6⟩, ⟨5, 6⟩, ⟨7, 9⟩]⟩ 0 4 (by decide)).1.trans (by rfl)⟩

/-! ## Failures of the parsing entry points -/

theorem parseTokenizedSentence_thrown (env : Setup SentRep α) (parseTree : Tree α)
    (srp : SentRep) (off : Int) (e : Failure)
    (h : (parseTokenizedSentence env parseTree srp off).thrown = some e) :
    ∃ reason, e = .annotationFailed reason := by
  revert h
  unfold parseTokenizedSentence
  dsimp only
  repeat' split
  all_goals
    intro h
    first
      | exact ⟨_, (Option.some.inj h).symm⟩
      | exact Option.noConfusion h

theorem parseSentence_thrown (env : Setup SentRep α) (parseTree : Tree α)
    (input : String) (off : Int) (e : Failure)
    (h : (parseSentence env parseTree input off).thrown = some e) :
    ∃ reason, e = .annotationFailed reason := by
  revert h
  unfold parseSentence
  dsimp only
  split
  · intro h; exact ⟨_, (Option.some.inj h).symm⟩
  · split
    · intro h; exact ⟨_, (Option.some.inj h).symm⟩
    · intro h; exact parseTokenizedSentence_thrown env _ _ _ e h

theorem parseStep_thrown (env : Setup SentRep α) (text : String)
    (tokenVec : List StringWithOffsets) (start : Int) (e : Failure)
    (h : (parseStep env text tokenVec start).thrown = some e) :
    ∃ reason, e = .annotationFailed reason := by
  unfold parseStep at h
  split at h
  · exact parseSentence_thrown env _ _ _ e h
  · exact parseTokenizedSentence_thrown env _ _ _ e h

/-! ## The loop over the sentences -/

theorem sentenceLoop_ok_iff (env : Setup SentRep α) (text : String) (tokens : Labeling)
    (sents : List Span) (parses : Forest α) :
    (sentenceLoop env text tokens sents parses).thrown = none ↔
      ∀ s ∈ sents, (sentenceBody env text tokens s).thrown = none := by
  induction sents generalizing parses with
  | nil => simp [sentenceLoop]
  | cons s rest ih =>
    unfold sentenceLoop
    dsimp only
    cases hb : (sentenceBody env text tokens s).thrown with
    | some e => simp [hb]
    | none =>
      dsimp only
      rw [ih]
      simp [hb]

theorem sentenceLoop_ok_out (env : Setup SentRep α) (text : String) (tokens : Labeling)
    (sents : List Span) (parses : Forest α)
    (h : (sentenceLoop env text tokens sents parses).thrown = none) :
    (sentenceLoop env text tokens sents parses).out =
      { parses with
        trees := parses.trees ++ sents.map (fun s => (sentenceBody env text tokens s).out) } := by
  induction sents generalizing parses with
  | nil => simp [sentenceLoop]
  | cons s rest ih =>
    unfold sentenceLoop at h ⊢
    dsimp only at h ⊢
    cases hb : (sentenceBody env text tokens s).thrown with
    | some e => rw [hb] at h; exact absurd h (by simp)
    | none =>
      rw [hb] at h
      dsimp only at h ⊢
      rw [ih _ h]
      simp

theorem sentenceLoop_first_failure (env : Setup SentRep α) (text : String)
    (tokens : Labeling) (pre : List Span) (s : Span) (post : List Span) (parses : Forest α)
    (e : Failure)
    (hpre : ∀ s' ∈ pre, (sentenceBody env text tokens s').thrown = none)
    (hs : (sentenceBody env text tokens s).thrown = some e) :
    (sentenceLoop env text tokens (pre ++ s :: post) parses).thrown = some e ∧
    (sentenceLoop env text tokens (pre ++ s :: post) parses).out =
      { parses with
        trees := parses.trees ++ pre.map (fun s => (sentenceBody env text tokens s).out) } := by
  induction pre generalizing parses with
  | nil =>
    simp only [List.nil_append, List.map_nil, List.append_nil]
    unfold sentenceLoop
    dsimp only
    rw [hs]
    exact ⟨rfl, rfl⟩
  | cons p pre ih =>
    have hp := hpre p (List.mem_cons_self _ _)
    have ih' := ih { parses with trees := parses.trees ++ [(sentenceBody env text tokens p).out] }
      (fun s' hs' => hpre s' (List.mem_cons_of_mem _ hs'))
    simp only [List.cons_append]
    unfold sentenceLoop
    dsimp only
    rw [hp]
    dsimp only
    refine ⟨ih'.1, ?_⟩
    rw [ih'.2]
    simp

theorem sentenceLoop_keeps (env : Setup SentRep α) (text : String) (tokens : Labeling)
    (sents : List Span) (parses : Forest α) :
    (sentenceLoop env text tokens sents parses).out.rawText = parses.rawText ∧
    (sentenceLoop env text tokens sents parses).out.source = parses.source ∧
    (sentenceLoop env text tokens sents parses).out.isset = parses.isset := by
  induction sents generalizing parses with
  | nil => simp [sentenceLoop]
  | cons s rest ih =>
    unfold sentenceLoop
    dsimp only
    cases hb : (sentenceBody env text tokens s).thrown with
    | some e => simp
    | none =>
      dsimp only
      exact ih _

/-! ## Claims on `parseRecord` -/

theorem parseRecord_of_sentences (env : Setup SentRep α) (parses : Forest α)
    (record : Record) (hn : (getLabelView record env.SENT_VIEW).labels ≠ []) :
    (parseRecord env parses record).thrown =
      (sentenceLoop env record.rawText (getLabelView record env.TOK_VIEW)
        (getLabelView record env.SENT_VIEW).labels parses).thrown ∧
    (parseRecord env parses record).calls =
      (sentenceLoop env record.rawText (getLabelView record env.TOK_VIEW)
        (getLabelView record env.SENT_VIEW).labels parses).calls ∧
    (parseRecord env parses record).out.trees =
      (sentenceLoop env record.rawText (getLabelView record env.TOK_VIEW)
        (getLabelView record env.SENT_VIEW).labels parses).out.trees := by
  have h0 : ¬ (0 = (getLabelView record env.SENT_VIEW).labels.length) := by
    intro h
    exact hn (List.length_eq_zero.1 h.symm)
  unfold parseRecord
  dsimp only
  rw [if_neg h0]
  split
  · rename_i e he
    exact ⟨he.symm, rfl, rfl⟩
  · rename_i he
    exact ⟨he.symm, rfl, rfl⟩

/-- C6, the code at the failing input: in self-tokenizing mode `parseRecord` calls
`parseSentence` once per sentence span, each time on the whole document text
`"A b. C d."`, where the slices of the two spans are `"A b."` and `"C d."`. -/
theorem parseRecord_selfTokenizing_hands_whole_text :
    (parseRecord (sampleSetup true true) Forest.init sampleRecord).calls =
      [Call.parseSentence "A b. C d." 0,
       Call.parseTokenizedSentence [⟨"<s> A b. C d. </s>\n", 0, 0⟩] 0,
       Call.parseSentence "A b. C d." 5,
       Call.parseTokenizedSentence [⟨"<s> A b. C d. </s>\n", 0, 0⟩] 5] ∧
    substr sampleRecord.rawText 0 4 = .ok "A b." ∧
    substr sampleRecord.rawText 5 4 = .ok "C d." :=
  ⟨by decide, by rfl, by rfl⟩

/-- C7: for every document with at least one sentence span, `parseRecord` returns a forest
exactly when every sentence of it is parsed; the trees pushed are then the trees of the
sentence spans in document order (so `n` trees when the forest came in empty); and when the
parse of a sentence throws after the earlier ones were parsed, the exception is an
`AnnotationFailedException` and leaves `parseRecord` uncaught. -/
theorem parseRecord_strict_fail (env : Setup SentRep α) (parses : Forest α)
    (record : Record) (hn : (getLabelView record env.SENT_VIEW).labels ≠ []) :
    ((parseRecord env parses record).thrown = none ↔
      ∀ s ∈ (getLabelView record env.SENT_VIEW).labels,
        (sentenceBody env record.rawText (getLabelView record env.TOK_VIEW) s).thrown
          = none) ∧
    ((parseRecord env parses record).thrown = none →
      (parseRecord env parses record).out.trees =
        parses.trees ++ (getLabelView record env.SENT_VIEW).labels.map (fun s =>
          (sentenceBody env record.rawText (getLabelView record env.TOK_VIEW) s).out) ∧
      (parses.trees = [] →
        (parseRecord env parses record).out.trees.length
          = (getLabelView record env.SENT_VIEW).labels.length ∧
        ∀ (i : Nat) (s : Span), (getLabelView record env.SENT_VIEW).labels[i]? = some s →
          (parseRecord env parses record).out.trees[i]? =
            some (sentenceBody env record.rawText (getLabelView record env.TOK_VIEW)
              s).out)) ∧
    (∀ (pre : List Span) (s : Span) (post : List Span) (tokenVec : List StringWithOffsets)
        (e : Failure),
      (getLabelView record env.SENT_VIEW).labels = pre ++ s :: post →
      (∀ s' ∈ pre,
        (sentenceBody env record.rawText (getLabelView record env.TOK_VIEW) s').thrown
          = none) →
      buildTokenVec env record.rawText (getLabelView record env.TOK_VIEW) s.start s.ending
        = .ok tokenVec →
      (parseStep env record.rawText tokenVec s.start).thrown = some e →
      (∃ reason, e = .annotationFailed reason) ∧
      (parseRecord env parses record).thrown = some e ∧
      (parseRecord env parses record).out.trees =
        parses.trees ++ pre.map (fun s =>
          (sentenceBody env record.rawText (getLabelView record env.TOK_VIEW) s).out)) := by
  obtain ⟨hT, -, hO⟩ := parseRecord_of_sentences env parses record hn
  refine ⟨?_, ?_, ?_⟩
  · rw [hT]
    exact sentenceLoop_ok_iff env _ _ _ _
  · intro h
    rw [hT] at h
    have hout := sentenceLoop_ok_out env _ _ _ _ h
    have htrees : (parseRecord env parses record).out.trees =
        parses.trees ++ (getLabelView record env.SENT_VIEW).labels.map (fun s =>
          (sentenceBody env record.rawText (getLabelView record env.TOK_VIEW) s).out) := by
      rw [hO, hout]
    refine ⟨htrees, ?_⟩
    intro hnil
    rw [htrees, hnil]
    refine ⟨by simp, ?_⟩
    intro i s hi
    simp [hi]
  · intro pre s post tokenVec e hsplit hpre hv hp
    have hs : (sentenceBody env record.rawText (getLabelView record env.TOK_VIEW) s).thrown
        = some e := by
      unfold sentenceBody
      dsimp only
      rw [hv]
      exact hp
    have hf := sentenceLoop_first_failure env record.rawText
      (getLabelView record env.TOK_VIEW) pre s post parses e hpre hs
    rw [← hsplit] at hf
    refine ⟨parseStep_thrown env _ _ _ e hp, ?_, ?_⟩
    · rw [hT]; exact hf.1
    · rw [hO, hf.2]

/-- Witness of C7: the sample record in externally-tokenized mode; both sentences parse. -/
theorem parseRecord_strict_fail_witness :
    (getLabelView sampleRecord (sampleSetup false true).SENT_VIEW).labels ≠ [] ∧
    (parseRecord (sampleSetup false true) Forest.init sampleRecord).thrown = none ∧
    (parseRecord (sampleSetup false true) Forest.init sampleRecord).out.trees.length
      = (getLabelView sampleRecord (sampleSetup false true).SENT_VIEW).labels.length :=
  ⟨by decide, by decide,
    (((parseRecord_strict_fail (sampleSetup false true) Forest.init sampleRecord
      (by decide)).2.1 (by decide)).2 rfl).1⟩

/-- C8 as stated fails: on the sample record with a chart that finds no parse the call
fails, and the forest holds the empty text it came in with, not the document text. -/
theorem parseRecord_failure_leaves_rawText :
    (getLabelView sampleRecord (sampleSetup false false).SENT_VIEW).labels ≠ [] ∧
    (parseRecord (sampleSetup false false) Forest.init sampleRecord).thrown
      = some (.annotationFailed "parse failed.") ∧
    (parseRecord (sampleSetup false false) Forest.init sampleRecord).out.rawText = "" ∧
    (parseRecord (sampleSetup false false) Forest.init sampleRecord).out.rawText
      ≠ sampleRecord.rawText :=
  ⟨by decide, by decide, by decide, by decide⟩

/-- C8, amended: for every document with at least one sentence span, when `parseRecord`
succeeds the `rawText` of the forest is the document text and its presence flag is set; when it
fails, `rawText` and its flag are as they were on entry. -/
theorem parseRecord_rawText (env : Setup SentRep α) (parses : Forest α) (record : Record)
    (hn : (getLabelView record env.SENT_VIEW).labels ≠ []) :
    ((parseRecord env parses record).thrown = none →
      (parseRecord env parses record).out.rawText = record.rawText ∧
      (parseRecord env parses record).out.isset.rawText = true) ∧
    ((parseRecord env parses record).thrown ≠ none →
      (parseRecord env parses record).out.rawText = parses.rawText ∧
      (parseRecord env parses record).out.isset.rawText = parses.isset.rawText) := by
  have h0 : ¬ (0 = (getLabelView record env.SENT_VIEW).labels.length) := by
    intro h
    exact hn (List.length_eq_zero.1 h.symm)
  obtain ⟨hk1, -, hk3⟩ := sentenceLoop_keeps env record.rawText
    (getLabelView record env.TOK_VIEW) (getLabelView record env.SENT_VIEW).labels parses
  unfold parseRecord
  dsimp only
  rw [if_neg h0]
  split
  · refine ⟨fun h => absurd h (by simp), fun _ => ⟨hk1, ?_⟩⟩
    rw [hk3]
  · exact ⟨fun _ => ⟨rfl, rfl⟩, fun h => absurd rfl h⟩

/-- Witness of C8, amended: the sample record, parsed. -/
theorem parseRecord_rawText_witness :
    (getLabelView sampleRecord (sampleSetup false true).SENT_VIEW).labels ≠ [] ∧
    (parseRecord (sampleSetup false true) Forest.init sampleRecord).thrown = none ∧
    (parseRecord (sampleSetup false true) Forest.init sampleRecord).out.rawText
      = sampleRecord.rawText :=
  ⟨by decide, by decide,
    ((parseRecord_rawText (sampleSetup false true) Forest.init sampleRecord
      (by decide)).1 (by decide)).1⟩

/-- C9: for every record whose sentence view is missing or has no entries, `parseRecord`
fails with `AnnotationFailedException`, without any call to `parseSentence` or
`parseTokenizedSentence` and with the forest as it came in. -/
theorem parseRecord_no_sentences (env : Setup SentRep α) (parses : Forest α)
    (record : Record)
    (h : record.labelViews.lookup env.SENT_VIEW = none ∨
      ∃ view, record.labelViews.lookup env.SENT_VIEW = some view ∧ view.labels = []) :
    (∃ reason, (parseRecord env parses record).thrown = some (.annotationFailed reason)) ∧
    (parseRecord env parses record).calls = [] ∧
    (parseRecord env parses record).out = parses := by
  have h0 : (getLabelView record env.SENT_VIEW).labels = [] := by
    unfold getLabelView
    rcases h with h | ⟨view, h, hv⟩
    · rw [h]
    · rw [h]; exact hv
  unfold parseRecord
  dsimp only
  rw [h0]
  exact ⟨⟨_, rfl⟩, rfl, rfl⟩

/-- Witness of C9: a record without any view. -/
theorem parseRecord_no_sentences_witness :
    ((⟨"abc", []⟩ : Record).labelViews.lookup (sampleSetup false true).SENT_VIEW = none ∨
      ∃ view, (⟨"abc", []⟩ : Record).labelViews.lookup (sampleSetup false true).SENT_VIEW
        = some view ∧ view.labels = []) ∧
    ((∃ reason, (parseRecord (sampleSetup false true) Forest.init ⟨"abc", []⟩).thrown
        = some (.annotationFailed reason)) ∧
      (parseRecord (sampleSetup false true) Forest.init ⟨"abc", []⟩).calls = [] ∧
      (parseRecord (sampleSetup false true) Forest.init ⟨"abc", []⟩).out = Forest.init) :=
  ⟨Or.inl (by decide),
    parseRecord_no_sentences (sampleSetup false true) Forest.init ⟨"abc", []⟩
      (Or.inl (by decide))⟩

end HandlerTheorems





/-! ## The score -/

theorem log_1000_bounds : (6.90747 : ℝ) < Real.log 1000 ∧ Real.log 1000 < 6.90804 := by
  have h2l := Real.log_two_gt_d9
  have h2u := Real.log_two_lt_d9
  have e1 : Real.log 1000 = 10 * Real.log 2 - Real.log 1.024 := by
    have : (1000 : ℝ) = 2 ^ 10 / 1.024 := by norm_num
    rw [this, Real.log_div (by norm_num) (by norm_num), Real.log_pow]
    norm_num
  have u : Real.log 1.024 ≤ 1.024 - 1 := Real.log_le_sub_one_of_pos (by norm_num)
  have l : 1 - (1.024 : ℝ)⁻¹ ≤ Real.log 1.024 := Real.one_sub_inv_le_log_of_pos (by norm_num)
  have l1 : (0.0234375 : ℝ) ≤ Real.log 1.024 := by
    have : 1 - (1.024 : ℝ)⁻¹ = 0.0234375 := by norm_num
    rw [this] at l; exact l
  rw [e1]
  constructor <;> norm_num at * <;> linarith

theorem logb_600_bounds : (9.228 : ℝ) < Real.logb 2 600 ∧ Real.logb 2 600 < 9.229 := by
  have h2 : (0 : ℝ) < Real.log 2 := Real.log_pos (by norm_num)
  have hl : Real.log ((2 : ℝ) ^ 9228) < Real.log ((600 : ℝ) ^ 1000) :=
    Real.log_lt_log (by positivity) (by norm_num)
  have hu : Real.log ((600 : ℝ) ^ 1000) < Real.log ((2 : ℝ) ^ 9229) :=
    Real.log_lt_log (by positivity) (by norm_num)
  rw [Real.log_pow, Real.log_pow] at hl hu
  unfold Real.logb
  constructor
  · rw [lt_div_iff₀ h2]; push_cast at hl; linarith
  · rw [div_lt_iff₀ h2]; push_cast at hu; linarith

theorem logP_real (p : ℝ) (len : Int) :
    logP (⟨Real.log, Real.logb 2⟩ : Libm ℝ) p len
      = Real.log p - (len : ℝ) * Real.logb 2 600 := by
  unfold logP log600
  norm_num

theorem log_thousandth : Real.log (1 / 1000) = - Real.log 1000 := by
  rw [one_div, Real.log_inv]

/-- C10 as stated fails at its own example: with exact logarithms, for probability `0.001`
and length `5` the score lies below `-53`, more than `1` away from `-51.77`, because
`5 * log2(600)` exceeds `46` and is not near `44.86`. -/
theorem logP_example_not_as_claimed :
    logP (⟨Real.log, Real.logb 2⟩ : Libm ℝ) (1 / 1000) 5 < -53 ∧
    (46 : ℝ) < 5 * log600 (⟨Real.log, Real.logb 2⟩ : Libm ℝ) ∧
    ¬ |logP (⟨Real.log, Real.logb 2⟩ : Libm ℝ) (1 / 1000) 5 - (-51.77)| ≤ 1 := by
  have h1 := log_1000_bounds
  have h2 := logb_600_bounds
  have hs : logP (⟨Real.log, Real.logb 2⟩ : Libm ℝ) (1 / 1000) 5 < -53 := by
    rw [logP_real, log_thousandth]
    push_cast
    linarith [h1.1, h2.1]
  refine ⟨hs, ?_, ?_⟩
  · unfold log600
    push_cast
    linarith [h2.1]
  · intro h
    rw [abs_le] at h
    linarith [h.1]

/-- C10, amended: with exact logarithms, the score a successful `parseTokenizedSentence`
reports for a parse of probability `p` (then `p > 0`) of a sentence of length `n` is
`ln(p) - n * log2(600)`; for `p = 0.001` and `n = 5` this is approximately `-53.05`
(`ln(0.001)` is about `-6.9078` and `5 * log2(600)` about `46.14`). -/
theorem parseTokenizedSentence_score {SentRep : Type} (env : Setup SentRep ℝ)
    (parseTree : Tree ℝ) (srp : SentRep) (off : Int)
    (hm : env.libm = ⟨Real.log, Real.logb 2⟩)
    (h : (parseTokenizedSentence env parseTree srp off).thrown = none) :
    ∃ p : ℝ, env.findMapParse srp = .ok p ∧ 0 < p ∧
      (parseTokenizedSentence env parseTree srp off).out.score
        = Real.log p - (env.length srp : ℝ) * Real.logb 2 600 ∧
      (p = 1 / 1000 → env.length srp = 5 →
        |Real.log p - (-6.9078)| < 0.001 ∧
        |(env.length srp : ℝ) * Real.logb 2 600 - 46.14| < 0.01 ∧
        |(parseTokenizedSentence env parseTree srp off).out.score - (-53.05)| < 0.01) := by
  obtain ⟨-, -, -, p, mapparse, hF, hp, -, hOut⟩ :=
    parseTokenizedSentence_ok env parseTree srp off h
  have hscore : (parseTokenizedSentence env parseTree srp off).out.score
      = Real.log p - (env.length srp : ℝ) * Real.logb 2 600 := by
    rw [hOut, hm]
    exact logP_real p (env.length srp)
  refine ⟨p, hF, not_le.1 hp, hscore, ?_⟩
  intro hp1 hlen
  have h1 := log_1000_bounds
  have h2 := logb_600_bounds
  rw [hscore, hp1, hlen, log_thousandth]
  push_cast
  refine ⟨?_, ?_, ?_⟩ <;> rw [abs_lt] <;> constructor <;> linarith [h1.1, h1.2, h2.1, h2.2]

/-- Witness of C10, amended: the sample chart with probability `0.001` on five tokens. -/
theorem parseTokenizedSentence_score_witness :
    (sampleSetupWith (⟨Real.log, Real.logb 2⟩ : Libm ℝ) (1 / 1000) false true).libm
      = ⟨Real.log, Real.logb 2⟩ ∧
    (parseTokenizedSentence
      (sampleSetupWith (⟨Real.log, Real.logb 2⟩ : Libm ℝ) (1 / 1000) false true) Tree.init
      [⟨"a", 0, 1⟩, ⟨"b", 2, 3⟩, ⟨"c", 4, 5⟩, ⟨"d", 6, 7⟩, ⟨"e", 8, 9⟩] 0).thrown = none ∧
    |(parseTokenizedSentence
      (sampleSetupWith (⟨Real.log, Real.logb 2⟩ : Libm ℝ) (1 / 1000) false true) Tree.init
      [⟨"a", 0, 1⟩, ⟨"b", 2, 3⟩, ⟨"c", 4, 5⟩, ⟨"d", 6, 7⟩, ⟨"e", 8, 9⟩] 0).out.score
        - (-53.05)| < 0.01 := by
  have hthrown : (parseTokenizedSentence
      (sampleSetupWith (⟨Real.log, Real.logb 2⟩ : Libm ℝ) (1 / 1000) false true) Tree.init
      [⟨"a", 0, 1⟩, ⟨"b", 2, 3⟩, ⟨"c", 4, 5⟩, ⟨"d", 6, 7⟩, ⟨"e", 8, 9⟩] 0).thrown = none := by
    have hp : ¬ ((1000 : ℝ) ≤ 0) := by norm_num
    simp [parseTokenizedSentence, sampleSetupWith, hp]
    split <;> rfl
  obtain ⟨p, hp, -, -, hex⟩ := parseTokenizedSentence_score
    (sampleSetupWith (⟨Real.log, Real.logb 2⟩ : Libm ℝ) (1 / 1000) false true) Tree.init
    [⟨"a", 0, 1⟩, ⟨"b", 2, 3⟩, ⟨"c", 4, 5⟩, ⟨"d", 6, 7⟩, ⟨"e", 8, 9⟩] 0 rfl hthrown
  have hp1 : p = 1 / 1000 := (Except.ok.inj hp).symm
  exact ⟨rfl, hthrown, (hex hp1 rfl).2.2⟩

/-! ## Segmentation: token groups of different sentences -/

section Segmentation

variable {SentRep α : Type}

theorem buildTokenVec_ok (env : Setup SentRep α) (text : String) (tokens : Labeling)
    (start end_ : Int) (h : env.tokenize = false) (v : List StringWithOffsets)
    (hv : buildTokenVec env text tokens start end_ = .ok v) :
    v = (tokens.labels.filter (withinSentence start end_)).map (tokenOf text) := by
  unfold buildTokenVec at hv
  rw [h] at hv
  simp only [Bool.not_false, if_true] at hv
  rw [tokenLoop_eq] at hv
  split at hv
  · simpa using (Except.ok.inj hv).symm
  · exact Except.noConfusion hv

theorem mem_buildTokenVec (env : Setup SentRep α) (text : String) (tokens : Labeling)
    (start end_ : Int) (h : env.tokenize = false) (v : List StringWithOffsets)
    (hv : buildTokenVec env text tokens start end_ = .ok v) (a : StringWithOffsets)
    (ha : a ∈ v) :
    Span.mk a.start a.ending ∈ tokens.labels ∧
    start ≤ a.start ∧ a.start ≤ end_ ∧ start ≤ a.ending ∧ a.ending ≤ end_ := by
  rw [buildTokenVec_ok env text tokens start end_ h v hv] at ha
  obtain ⟨t, ht, rfl⟩ := List.mem_map.1 ha
  obtain ⟨ht1, ht2⟩ := List.mem_filter.1 ht
  unfold withinSentence at ht2
  simp only [decide_eq_true_eq] at ht2
  exact ⟨ht1, ht2⟩

/-- C11 as stated fails: the sentence spans `(0, 5)` and `(5, 10)` do not overlap as
half-open ranges, and the empty token span `(5, 5)` is selected into the token vectors of
both, which `parseRecord` hands to the parser one after the other. -/
theorem adjacent_sentences_share_empty_token :
    (getLabelView adjacentRecord "sentences").labels = [⟨0, 5⟩, ⟨5, 10⟩] ∧
    (5 : Int) ≤ 5 ∧
    buildTokenVec (sampleSetup false true) adjacentRecord.rawText
      (getLabelView adjacentRecord "tokens") 0 5 = .ok [⟨"", 5, 5⟩] ∧
    buildTokenVec (sampleSetup false true) adjacentRecord.rawText
      (getLabelView adjacentRecord "tokens") 5 10 = .ok [⟨"", 5, 5⟩] ∧
    (parseRecord (sampleSetup false true) Forest.init adjacentRecord).calls =
      [Call.parseTokenizedSentence [⟨"", 5, 5⟩] 0,
       Call.parseTokenizedSentence [⟨"", 5, 5⟩] 5] :=
  ⟨by decide, by decide, by rfl, by rfl, by decide⟩

theorem pairwise_mem_cases {sents : List Span}
    (hpw : sents.Pairwise (fun a b => a.ending ≤ b.start)) (s s' : Span)
    (hs : s ∈ sents) (hs' : s' ∈ sents) :
    s = s' ∨ s.ending ≤ s'.start ∨ s'.ending ≤ s.start := by
  by_cases he : s = s'
  · exact Or.inl he
  · have hsym : sents.Pairwise (fun a b => a.ending ≤ b.start ∨ b.ending ≤ a.start) :=
      hpw.imp (fun hab => Or.inl hab)
    exact Or.inr (hsym.forall (fun _ _ hab => hab.symm) hs hs' he)

/-- C11, amended: in externally-tokenized mode, for every document whose sentence spans are
well-formed (`start <= end`) and pairwise non-overlapping as half-open ranges (the end of a
sentence is at most the start of every later one), no token span of positive length is
selected into the token vectors of two different sentences, and a selected token span
crosses no sentence boundary, so a span that crosses one is selected into none; for the
sentence spans `(0, 5)`, `(6, 11)` and the token spans `(0, 1)`, `(2, 4)`, `(4, 7)`, `(6, 8)`,
`(9, 11)` the two vectors hold the spans `(0, 1)`, `(2, 4)` and `(6, 8)`, `(9, 11)`. -/
theorem token_groups_disjoint (env : Setup SentRep α) (text : String) (tokens : Labeling)
    (sents : List Span) (h : env.tokenize = false)
    (hpw : sents.Pairwise (fun a b => a.ending ≤ b.start))
    (hwf : ∀ s ∈ sents, s.start ≤ s.ending) :
    (∀ (i j : Nat) (s1 s2 : Span) (v1 v2 : List StringWithOffsets)
        (a b : StringWithOffsets),
      i < j → sents[i]? = some s1 → sents[j]? = some s2 →
      buildTokenVec env text tokens s1.start s1.ending = .ok v1 →
      buildTokenVec env text tokens s2.start s2.ending = .ok v2 →
      a ∈ v1 → b ∈ v2 → a.start = b.start → a.ending = b.ending →
      ¬ a.start < a.ending) ∧
    (∀ (s s' : Span) (v : List StringWithOffsets) (a : StringWithOffsets),
      s ∈ sents → s' ∈ sents →
      buildTokenVec env text tokens s.start s.ending = .ok v → a ∈ v →
      ¬ (a.start < s'.start ∧ s'.start < a.ending) ∧
      ¬ (a.start < s'.ending ∧ s'.ending < a.ending)) ∧
    (∀ text1 : String, 9 ≤ text1.length →
      buildTokenVec env text1 exampleTokens 0 5
        = .ok [tokenOf text1 ⟨0, 1⟩, tokenOf text1 ⟨2, 4⟩] ∧
      buildTokenVec env text1 exampleTokens 6 11
        = .ok [tokenOf text1 ⟨6, 8⟩, tokenOf text1 ⟨9, 11⟩]) := by
  refine ⟨?_, ?_, ?_⟩
  · intro i j s1 s2 v1 v2 a b hij h1 h2 hv1 hv2 ha hb hst hen hpos
    obtain ⟨hi, rfl⟩ := List.getElem?_eq_some.1 h1
    obtain ⟨hj, rfl⟩ := List.getElem?_eq_some.1 h2
    have hR := List.pairwise_iff_getElem.1 hpw i j hi hj hij
    obtain ⟨-, -, -, -, ha4⟩ := mem_buildTokenVec env text tokens _ _ h v1 hv1 a ha
    obtain ⟨-, hb1, -, -, -⟩ := mem_buildTokenVec env text tokens _ _ h v2 hv2 b hb
    omega
  · intro s s' v a hs hs' hv ha
    obtain ⟨-, ha1, ha2, ha3, ha4⟩ := mem_buildTokenVec env text tokens _ _ h v hv a ha
    have hw := hwf s hs
    have hw' := hwf s' hs'
    rcases pairwise_mem_cases hpw s s' hs hs' with he | he | he
    · subst he
      constructor <;> omega
    · constructor <;> omega
    · constructor <;> omega
  · intro text1 hlen
    have e0 : toSizeT 0 = 0 := by decide
    have e2 : toSizeT 2 = 2 := by decide
    have e6 : toSizeT 6 = 6 := by decide
    have e9 : toSizeT 9 = 9 := by decide
    have f1 : exampleTokens.labels.filter (withinSentence 0 5) = [⟨0, 1⟩, ⟨2, 4⟩] := by
      decide
    have f2 : exampleTokens.labels.filter (withinSentence 6 11) = [⟨6, 8⟩, ⟨9, 11⟩] := by
      decide
    unfold buildTokenVec
    rw [h]
    simp only [Bool.not_false, if_true]
    rw [tokenLoop_eq, tokenLoop_eq, f1, f2]
    constructor
    · rw [if_pos]
      · rfl
      · simp only [List.all_cons, List.all_nil, startsInText, e0, e2, Bool.and_true,
          Bool.and_eq_true, decide_eq_true_eq]
        omega
    · rw [if_pos]
      · rfl
      · simp only [List.all_cons, List.all_nil, startsInText, e6, e9, Bool.and_true,
          Bool.and_eq_true, decide_eq_true_eq]
        omega

/-- Witness of C11, amended: the example of the specification on the text `Hello world`. -/
theorem token_groups_disjoint_witness :
    (sampleSetup false true).tokenize = false ∧
    exampleSentences.Pairwise (fun a b => a.ending ≤ b.start) ∧
    (∀ s ∈ exampleSentences, s.start ≤ s.ending) ∧
    buildTokenVec (sampleSetup false true) "Hello world" exampleTokens 0 5
      = .ok [⟨"H", 0, 1⟩, ⟨"ll", 2, 4⟩] ∧
    buildTokenVec (sampleSetup false true) "Hello world" exampleTokens 6 11
      = .ok [⟨"wo", 6, 8⟩, ⟨"ld", 9, 11⟩] :=
  ⟨by decide, by decide, by decide,
    (token_groups_disjoint (sampleSetup false true) "Hello world" exampleTokens
      exampleSentences (by decide) (by decide) (by decide)).2.2 "Hello world" (by decide)⟩

end Segmentation

/-! ## Losslessness of the flattener -/

theorem mapInsert_append (m : List (Int × String)) (k : Int) (v : String)
    (h : ∀ e ∈ m, e.1 < k) : mapInsert m k v = m ++ [(k, v)] := by
  induction m with
  | nil => rfl
  | cons a rest ih =>
    have ha : a.1 < k := h a (List.mem_cons_self _ _)
    simp only [mapInsert]
    rw [if_neg (by omega), if_neg (by omega), ih (fun e he => h e (List.mem_cons_of_mem _ he))]
    rfl

theorem postOrder_eq (t : InputTree) : postOrder t = postOrderList t.subTrees ++ [t] := by
  cases t with
  | mk term ntInfo so eo children => simp [postOrder, InputTree.subTrees]

mutual

theorem Represents_append (nodes more : List Node) :
    ∀ (t : InputTree) (i : Int), Represents nodes t i → Represents (nodes ++ more) t i
  | InputTree.mk term ntInfo so eo children, i, h => by
    simp only [Represents] at h ⊢
    obtain ⟨n, h0, hn, hl, hs, hr⟩ := h
    refine ⟨n, h0, ?_, hl, hs, RepresentsList_append nodes more children _ 0 i hr⟩
    have hlt : i.toNat < nodes.length := by
      obtain ⟨hlt, -⟩ := List.getElem?_eq_some.1 hn
      exact hlt
    rw [List.getElem?_append_left hlt]
    exact hn

theorem RepresentsList_append (nodes more : List Node) :
    ∀ (cs : List InputTree) (ks : List Int) (lo hi : Int),
      RepresentsList nodes cs ks lo hi → RepresentsList (nodes ++ more) cs ks lo hi
  | [], ks, lo, hi, h => by
    simp only [RepresentsList] at h ⊢
    exact h
  | subTree :: rest, ks, lo, hi, h => by
    simp only [RepresentsList] at h ⊢
    obtain ⟨k, ks1, hk, hlo, hhi, hr, hrest⟩ := h
    exact ⟨k, ks1, hk, hlo, hhi, Represents_append nodes more subTree k hr,
      RepresentsList_append nodes more rest ks1 (k + 1) hi hrest⟩

end

theorem RepresentsList_lo (nodes : List Node) (cs : List InputTree) (ks : List Int)
    (lo lo1 hi : Int) (hle : lo1 ≤ lo) (h : RepresentsList nodes cs ks lo hi) :
    RepresentsList nodes cs ks lo1 hi := by
  cases cs with
  | nil =>
    simp only [RepresentsList] at h ⊢
    exact h
  | cons subTree rest =>
    simp only [RepresentsList] at h ⊢
    obtain ⟨k, ks1, hk, hlo, hhi, hr, hrest⟩ := h
    exact ⟨k, ks1, hk, by omega, hhi, hr, hrest⟩

theorem RepresentsList_keys (nodes : List Node) (cs : List InputTree) :
    ∀ (ks : List Int) (lo hi : Int), RepresentsList nodes cs ks lo hi →
      ks.length = cs.length ∧ (∀ k ∈ ks, lo ≤ k ∧ k < hi) ∧ ks.Pairwise (fun a b => a < b) ∧
      ∀ (m : Nat) (c : InputTree), cs[m]? = some c →
        ∃ k, ks[m]? = some k ∧ Represents nodes c k := by
  induction cs with
  | nil =>
    intro ks lo hi h
    simp only [RepresentsList] at h
    subst h
    simp
  | cons subTree rest ih =>
    intro ks lo hi h
    simp only [RepresentsList] at h
    obtain ⟨k, ks1, hk, hlo, hhi, hr, hrest⟩ := h
    obtain ⟨hlen, hbd, hpw, hidx⟩ := ih ks1 (k + 1) hi hrest
    subst hk
    refine ⟨by simp [hlen], ?_, ?_, ?_⟩
    · intro x hx
      rcases List.mem_cons.1 hx with hx | hx
      · subst hx; exact ⟨hlo, hhi⟩
      · have := hbd x hx; omega
    · refine List.pairwise_cons.2 ⟨?_, hpw⟩
      intro x hx
      have := hbd x hx; omega
    · intro m c hm
      cases m with
      | zero =>
        simp only [List.getElem?_cons_zero, Option.some.injEq] at hm
        subst hm
        exact ⟨k, by simp, hr⟩
      | succ m =>
        simp only [List.getElem?_cons_succ] at hm ⊢
        exact hidx m c hm

mutual

theorem addRootNodeAndTraverse_represents (hp : InputTree → Int) :
    ∀ (t : InputTree) (nodes : List Node) (off : Int) (j : Nat) (s : InputTree),
      (postOrder t)[j]? = some s →
      Represents (addRootNodeAndTraverse hp t nodes off) s ((nodes.length + j : Nat) : Int)
  | InputTree.mk term ntInfo so eo children, nodes, off, j, s, hs => by
    have hL := LoopInv.rootNode (InputTree.mk term ntInfo so eo children) nodes.length
      (hp (InputTree.mk term ntInfo so eo children))
    obtain ⟨app, hEq, -, hLab, hSpan, -, -, -, hRec, -⟩ :=
      traverseChildren_inv hp (hp (InputTree.mk term ntInfo so eo children)) off children 0
        (rootNode (InputTree.mk term ntInfo so eo children)) nodes hL
    obtain ⟨hDesc, ks, hks, hRL⟩ :=
      traverseChildren_represents hp (hp (InputTree.mk term ntInfo so eo children)) off
        children 0 (rootNode (InputTree.mk term ntInfo so eo children)) nodes hL
    have hlen : app.length = (postOrderList children).length := hRec.length_eq
    simp only [addRootNodeAndTraverse]
    generalize traverseChildren hp (hp (InputTree.mk term ntInfo so eo children)) off
      children 0 (rootNode (InputTree.mk term ntInfo so eo children)) nodes = r at *
    have hr2 : r.2.length = nodes.length + (postOrderList children).length := by
      rw [hEq, List.length_append, hlen]
    simp only [postOrder] at hs
    by_cases hj : j < (postOrderList children).length
    · rw [List.getElem?_append_left hj] at hs
      exact Represents_append _ _ _ _ (hDesc j s hs)
    · have hj0 : j = (postOrderList children).length := by
        by_contra hne
        have hnone : (postOrderList children ++ [InputTree.mk term ntInfo so eo children])[j]?
            = none := by
          apply List.getElem?_eq_none
          simp only [List.length_append, List.length_singleton]
          omega
        rw [hnone] at hs
        exact Option.noConfusion hs
      subst hj0
      simp only [List.getElem?_concat_length, Option.some.injEq] at hs
      subst hs
      simp only [Represents]
      refine ⟨r.1, by omega, ?_, ?_, ?_, ?_⟩
      · rw [Int.toNat_ofNat, ← hr2]
        simp
      · rw [hLab]; rfl
      · rw [hSpan]; rfl
      · have hk : r.1.children.map Prod.fst = ks := by
          rw [hks]; rfl
        rw [hk]
        have h1 := RepresentsList_append r.2 [r.1] children ks _ _ hRL
        have h2 := RepresentsList_lo _ children ks _ 0 _ (by omega) h1
        rw [hr2] at h2
        exact h2

theorem traverseChildren_represents (hp : InputTree → Int) (co off : Int) :
    ∀ (cs : List InputTree) (ci : Int) (myNode : Node) (nodes : List Node),
      LoopInv nodes.length co ci myNode →
      (∀ (j : Nat) (s : InputTree), (postOrderList cs)[j]? = some s →
        Represents (traverseChildren hp co off cs ci myNode nodes).2 s
          ((nodes.length + j : Nat) : Int)) ∧
      ∃ ks : List Int,
        (traverseChildren hp co off cs ci myNode nodes).1.children.map Prod.fst
          = myNode.children.map Prod.fst ++ ks ∧
        RepresentsList (traverseChildren hp co off cs ci myNode nodes).2 cs ks
          (nodes.length : Int)
          ((traverseChildren hp co off cs ci myNode nodes).2.length : Int)
  | [], ci, myNode, nodes, h => by
    refine ⟨?_, [], ?_, ?_⟩
    · intro j s hs
      simp [postOrderList] at hs
    · simp [traverseChildren]
    · simp [RepresentsList]
  | subTree :: rest, ci, myNode, nodes, h => by
    obtain ⟨app1, last1, hEq1, -, -, -, -, -, hRec1, -⟩ :=
      addRootNodeAndTraverse_inv hp subTree nodes off
    have hlen1 : (addRootNodeAndTraverse hp subTree nodes off).length
        = nodes.length + (postOrder subTree).length := by
      rw [hEq1, List.length_append, hRec1.length_eq]
    have hpos : 0 < (postOrder subTree).length := by
      rw [postOrder_eq]; simp
    have hTree := addRootNodeAndTraverse_represents hp subTree nodes off
    have hstep : LoopInv (addRootNodeAndTraverse hp subTree nodes off).length co (ci + 1)
        (addChildEdge co ci { myNode with isset := { myNode.isset with children := true } }
          (addRootNodeAndTraverse hp subTree nodes off)) :=
      LoopInv.step h rfl (by omega)
    obtain ⟨app2, hEq2, -⟩ := traverseChildren_inv hp co off rest (ci + 1) _ _ hstep
    obtain ⟨hDesc2, ks2, hks2, hRL2⟩ :=
      traverseChildren_represents hp co off rest (ci + 1) _ _ hstep
    have hkeys : (addChildEdge co ci
        { myNode with isset := { myNode.isset with children := true } }
        (addRootNodeAndTraverse hp subTree nodes off)).children.map Prod.fst
        = myNode.children.map Prod.fst
          ++ [((addRootNodeAndTraverse hp subTree nodes off).length : Int) - 1] := by
      have hlt : ∀ e ∈ myNode.children,
          e.1 < ((addRootNodeAndTraverse hp subTree nodes off).length : Int) - 1 := by
        intro e he
        have := h.keys_lt e he
        omega
      unfold addChildEdge
      split_ifs <;> simp [mapInsert_append _ _ _ hlt]
    simp only [traverseChildren]
    generalize addRootNodeAndTraverse hp subTree nodes off = nodes1 at *
    generalize traverseChildren hp co off rest (ci + 1)
      (addChildEdge co ci { myNode with isset := { myNode.isset with children := true } }
        nodes1) nodes1 = r at *
    have hr2 : r.2.length = nodes1.length + app2.length := by
      rw [hEq2, List.length_append]
    refine ⟨?_, ((nodes1.length : Int) - 1) :: ks2, ?_, ?_⟩
    · intro j s hs
      simp only [postOrderList] at hs
      by_cases hj : j < (postOrder subTree).length
      · rw [List.getElem?_append_left hj] at hs
        have := Represents_append nodes1 app2 s _ (hTree j s hs)
        rw [← hEq2] at this
        exact this
      · rw [List.getElem?_append_right (by omega)] at hs
        have := hDesc2 _ s hs
        have he : nodes1.length + (j - (postOrder subTree).length) = nodes.length + j := by
          omega
        rw [he] at this
        exact this
    · rw [hks2, hkeys, List.append_assoc]
      rfl
    · simp only [RepresentsList]
      refine ⟨(nodes1.length : Int) - 1, ks2, rfl, by omega, by omega, ?_, ?_⟩
      · have hlast : (postOrder subTree)[(postOrder subTree).length - 1]? = some subTree := by
          rw [postOrder_eq]
          simp
        have := Represents_append nodes1 app2 subTree _
          (hTree ((postOrder subTree).length - 1) subTree hlast)
        rw [← hEq2] at this
        have he : ((nodes.length + ((postOrder subTree).length - 1) : Nat) : Int)
            = (nodes1.length : Int) - 1 := by
          omega
        rw [he] at this
        exact this
      · have he : (nodes1.length : Int) - 1 + 1 = (nodes1.length : Int) := by omega
        rw [he]
        exact hRL2

end

mutual

theorem unflattenAt_of_represents (nodes : List Node) :
    ∀ (t : InputTree) (i : Int), Represents nodes t i →
      ∀ fuel : Nat, i < (fuel : Int) → unflattenAt nodes fuel i = some (erase t)
  | InputTree.mk term ntInfo so eo children, i, h, fuel, hf => by
    simp only [Represents] at h
    obtain ⟨n, h0, hn, hl, hs, hr⟩ := h
    cases fuel with
    | zero => exact absurd hf (by omega)
    | succ fuel =>
      have hkids := mapOption_unflattenAt_of_represents nodes children _ 0 i hr fuel
        (by omega)
      simp only [unflattenAt]
      rw [if_neg (by omega), hn]
      simp only []
      rw [hkids]
      simp only [erase, hl, hs]

theorem mapOption_unflattenAt_of_represents (nodes : List Node) :
    ∀ (cs : List InputTree) (ks : List Int) (lo hi : Int),
      RepresentsList nodes cs ks lo hi →
      ∀ fuel : Nat, hi ≤ (fuel : Int) →
        mapOption (unflattenAt nodes fuel) ks = some (eraseList cs)
  | [], ks, lo, hi, h, fuel, hf => by
    simp only [RepresentsList] at h
    subst h
    rfl
  | subTree :: rest, ks, lo, hi, h, fuel, hf => by
    simp only [RepresentsList] at h
    obtain ⟨k, ks1, hk, hlo, hhi, hr, hrest⟩ := h
    subst hk
    have h1 := unflattenAt_of_represents nodes subTree k hr fuel (by omega)
    have h2 := mapOption_unflattenAt_of_represents nodes rest ks1 (k + 1) hi hrest fuel hf
    simp only [mapOption, h1, h2, eraseList]

end

/-- C12: flattening a native tree `t` into an empty list loses nothing.  The `j`-th record
is the one of the `j`-th native node `s` in post-order; its children mapping has exactly
one entry per subtree of `s`; the keys are strictly increasing, and the `m`-th key is below
`j` and is the index of the record of the `m`-th subtree (which in turn carries that
subtree, recursively); and `unflatten` rebuilds from the node list the tree `t` with its
shape, labels, spans and child order. -/
theorem addRootNodeAndTraverse_lossless (hp : InputTree → Int) (t : InputTree) (off : Int)
    (j : Nat) (n : Node) (s : InputTree)
    (hn : (addRootNodeAndTraverse hp t [] off)[j]? = some n)
    (hs : (postOrder t)[j]? = some s) :
    n.children.length = s.subTrees.length ∧
    (n.children.map Prod.fst).Pairwise (fun a b => a < b) ∧
    (∀ (m : Nat) (c : InputTree), s.subTrees[m]? = some c →
      ∃ e, n.children[m]? = some e ∧ 0 ≤ e.1 ∧ e.1 < (j : Int) ∧
        Represents (addRootNodeAndTraverse hp t [] off) c e.1) ∧
    Represents (addRootNodeAndTraverse hp t [] off) s (j : Int) ∧
    unflatten (addRootNodeAndTraverse hp t [] off) = some (erase t) := by
  have hrep := addRootNodeAndTraverse_represents hp t [] off j s hs
  simp only [List.length_nil, Nat.zero_add] at hrep
  have hroot : unflatten (addRootNodeAndTraverse hp t [] off) = some (erase t) := by
    obtain ⟨app, hEq, -, hRec, -⟩ := addRootNodeAndTraverse_appends hp t [] off
    have hlen : (addRootNodeAndTraverse hp t [] off).length = (postOrder t).length := by
      rw [hEq]; simpa using hRec.length_eq
    have hpos : 0 < (postOrder t).length := by
      rw [postOrder_eq]; simp
    have hlast : (postOrder t)[(postOrder t).length - 1]? = some t := by
      rw [postOrder_eq]; simp
    have h := addRootNodeAndTraverse_represents hp t [] off _ t hlast
    simp only [List.length_nil, Nat.zero_add] at h
    unfold unflatten
    rw [hlen]
    have he : (((postOrder t).length - 1 : Nat) : Int) = ((postOrder t).length : Int) - 1 := by
      omega
    rw [← he]
    exact unflattenAt_of_represents _ t _ h _ (by omega)
  cases s with
  | mk term ntInfo so eo children =>
    have hrep1 := hrep
    simp only [Represents] at hrep1
    obtain ⟨n1, -, hn1, -, -, hr⟩ := hrep1
    rw [Int.toNat_ofNat, hn] at hn1
    obtain rfl := Option.some.inj hn1
    obtain ⟨hlen, hbd, hpw, hidx⟩ := RepresentsList_keys _ children _ 0 j hr
    refine ⟨?_, hpw, ?_, hrep, hroot⟩
    · simpa [InputTree.subTrees] using hlen
    · intro m c hm
      simp only [InputTree.subTrees] at hm
      obtain ⟨k, hk, hrk⟩ := hidx m c hm
      rw [List.getElem?_map] at hk
      cases he : n.children[m]? with
      | none => rw [he] at hk; exact Option.noConfusion hk
      | some e =>
        rw [he] at hk
        simp only [Option.map_some', Option.some.injEq] at hk
        have hmem : k ∈ n.children.map Prod.fst := by
          rw [← hk]
          exact List.mem_map_of_mem _ (List.getElem?_mem he)
        have hb := hbd k hmem
        refine ⟨e, rfl, ?_, ?_, ?_⟩
        · rw [hk]; exact hb.1
        · rw [hk]; exact hb.2
        · rw [hk]; exact hrk

/-- Witness of C12: the root of the sample tree, which is the third record. -/
theorem addRootNodeAndTraverse_lossless_witness :
    (addRootNodeAndTraverse (fun _ => 1) sampleTree [] 0)[2]?
      = some ⟨"NP", ⟨0, 7⟩, [(0, ""), (1, "HEAD")], ⟨true, true⟩⟩ ∧
    (postOrder sampleTree)[2]? = some sampleTree ∧
    ([((0 : Int), ""), ((1 : Int), "HEAD")].map Prod.fst).Pairwise (fun a b => a < b) ∧
    unflatten (addRootNodeAndTraverse (fun _ => 1) sampleTree [] 0)
      = some (erase sampleTree) :=
  ⟨by decide, by rfl,
    (addRootNodeAndTraverse_lossless (fun _ => 1) sampleTree 0 2
      ⟨"NP", ⟨0, 7⟩, [(0, ""), (1, "HEAD")], ⟨true, true⟩⟩ sampleTree
      (by decide) (by rfl)).2.1,
    (addRootNodeAndTraverse_lossless (fun _ => 1) sampleTree 0 2
      ⟨"NP", ⟨0, 7⟩, [(0, ""), (1, "HEAD")], ⟨true, true⟩⟩ sampleTree
      (by decide) (by rfl)).2.2.2.2⟩

end Charniak

